import Mathlib

/-!
Verification of the streaming response transformer of the Helicone AI SDK
(`HeliconeLanguageModel.doStream` in `src/helicone-language-model.ts`).

The transformer reads decoded SSE frames (OpenAI-style chat-completion
deltas) and emits a normalized event sequence: text spans, tool-call
lifecycles, and a terminal `finish` event.  The shallow embedding below
models one streaming invocation: each SSE `data:` line is either a decoded
JSON frame (`some Frame`) or a JSON parse failure (`none`, dropped by the
`catch` around `JSON.parse`).  JavaScript truthiness tests on strings
(`if (toolCall.id)`, `if (delta.content)`, ...) are modelled by
`strTruthy`, which is false for an absent or empty string.
-/

namespace Helicone

/-- Usage object carried by a frame (`parsed.usage`): token counts may be
absent, in which case the code's `|| 0` turns them into zero. -/
structure Usage where
  prompt_tokens : Option Nat
  completion_tokens : Option Nat
  total_tokens : Option Nat
deriving DecidableEq, Repr

/-- The usage record accumulated by the session and reported by `finish`. -/
structure UsageOut where
  inputTokens : Nat
  outputTokens : Nat
  totalTokens : Nat
deriving DecidableEq, Repr

/-- `toolCall.function` of a streamed tool-call fragment. -/
structure FunctionFragment where
  name : Option String
  arguments : Option String
deriving DecidableEq, Repr

/-- One element of `delta.tool_calls`. -/
structure ToolCallFragment where
  index : Option Nat
  id : Option String
  function : Option FunctionFragment
deriving DecidableEq, Repr

/-- `choice.delta` of a frame. -/
structure Delta where
  content : Option String
  tool_calls : Option (List ToolCallFragment)
deriving DecidableEq, Repr

/-- One entry of `parsed.choices`. -/
structure Choice where
  finish_reason : Option String
  delta : Option Delta
deriving DecidableEq, Repr

/-- A decoded SSE frame (`parsed = JSON.parse(data)`); an absent `choices`
array behaves exactly like an empty one (`parsed.choices?.[0]`). -/
structure Frame where
  usage : Option Usage
  choices : List Choice
deriving DecidableEq, Repr

/-- Normalized stream events (`LanguageModelV2StreamPart` as enqueued by
`doStream`). -/
inductive Event where
  | textStart (id : String)
  | textDelta (id : String) (delta : String)
  | textEnd (id : String)
  | toolInputStart (id : String) (toolName : String)
  | toolInputDelta (id : String) (delta : String)
  | toolInputEnd (id : String)
  | toolCall (toolCallId : String) (toolName : String) (input : String)
  | finish (usage : UsageOut) (finishReason : String)
deriving DecidableEq, Repr

/-- Entry of the `toolCalls` map (`{id, name, arguments, completed}`); the
map key always equals the entry's `id` field, so the map is modelled as a
list of entries (in insertion order, as iterated by a JS `Map`) looked up
by `id`. -/
structure ToolCallState where
  id : String
  name : String
  arguments : String
  completed : Bool
deriving DecidableEq, Repr

/-- All mutable state of one `doStream` invocation: `usage`,
`actualFinishReason`, `toolCalls`, `indexToId`, `textStarted`, `textEnded`
(the two Sets keep insertion order, as iterated in the flush loops). -/
structure StreamState where
  usage : UsageOut
  finishReason : String
  toolCalls : List ToolCallState
  indexToId : List (Nat × String)
  textStarted : List String
  textEnded : List String
deriving DecidableEq, Repr

/-- JavaScript truthiness of an optional string field: `undefined` and the
empty string are falsy. -/
def strTruthy : Option String → Bool
  | some s => s != ""
  | none => false

/-- Modelled from the spec: the reason-mapping collaborator
`mapHeliconeFinishReason` lives in `helicone-error.ts`, which is not among
the provided sources.  The spec calls it "the externally supplied
reason-mapping collaborator" normalizing the provider's finish reason into
an enum, with `"tool_calls"` mapped to `"tool-calls"` (section 8 scenario)
and `"stop"` the default.  No claim below depends on its values. -/
def mapHeliconeFinishReason (reason : String) : String :=
  if reason == "stop" then "stop"
  else if reason == "length" then "length"
  else if reason == "tool_calls" then "tool-calls"
  else if reason == "content_filter" then "content-filter"
  else "unknown"

/-- `usage.inputTokens = parsed.usage.prompt_tokens || 0` and friends:
the session usage is overwritten wholesale from a frame's usage object. -/
def convUsage (u : Usage) : UsageOut :=
  { inputTokens := u.prompt_tokens.getD 0
    outputTokens := u.completion_tokens.getD 0
    totalTokens := u.total_tokens.getD 0 }

/-- `toolCalls.get(id)`. -/
def findCall (calls : List ToolCallState) (id : String) : Option ToolCallState :=
  calls.find? (fun c => c.id == id)

/-- In-place mutation of the tracked entry for `id` (JS object mutation
through the `trackedCall` reference). -/
def updateCall (calls : List ToolCallState) (id : String) (c' : ToolCallState) :
    List ToolCallState :=
  calls.map (fun c => if c.id == id then c' else c)

/-- `indexToId.set(index, toolId)`: overwrite in place if the key exists,
append otherwise. -/
def setIdx (m : List (Nat × String)) (n : Nat) (i : String) : List (Nat × String) :=
  if (m.lookup n).isSome then m.map (fun p => if p.1 == n then (n, i) else p)
  else m ++ [(n, i)]

/-- Resolution of a tool-call fragment to a tool id (lines 481-494):
a truthy `toolCall.id` is authoritative and records the index mapping when
an index is present; otherwise an already-mapped index resolves to the
mapped id; otherwise resolution fails and the fragment is skipped. -/
def resolveToolId (m : List (Nat × String)) (tc : ToolCallFragment) :
    Option (String × List (Nat × String)) :=
  if strTruthy tc.id then
    let toolId := tc.id.getD ""
    match tc.index with
    | some n => some (toolId, setIdx m n toolId)
    | none => some (toolId, m)
  else
    match tc.index with
    | some n =>
      match m.lookup n with
      | some j => some (j, m)
      | none => none
    | none => none

/-- Processing of one tool-call fragment (lines 480-533): resolve the id,
get-or-create the tracked call, emit `tool-input-start` when the first
truthy name arrives, accumulate truthy argument text (replacing the `"{}"`
sentinel outright, else appending) and emit `tool-input-delta`. -/
def processFragment (s : StreamState) (tc : ToolCallFragment) :
    List Event × StreamState :=
  match resolveToolId s.indexToId tc with
  | none => ([], s)
  | some (toolId, idx) =>
    -- `let trackedCall = toolCalls.get(toolId); if (!trackedCall) {...set...}`
    let tracked : ToolCallState :=
      (findCall s.toolCalls toolId).getD
        { id := toolId, name := "", arguments := "{}", completed := false }
    let base : List ToolCallState :=
      if (findCall s.toolCalls toolId).isNone then s.toolCalls ++ [tracked]
      else s.toolCalls
    let fname := tc.function.bind FunctionFragment.name
    let fargs := tc.function.bind FunctionFragment.arguments
    let nameHit := strTruthy fname && tracked.name == ""
    let tracked2 := if nameHit then { tracked with name := fname.getD "" } else tracked
    let evs1 : List Event :=
      if nameHit then [Event.toolInputStart toolId (fname.getD "")] else []
    let argHit := strTruthy fargs
    let tracked3 :=
      if argHit then
        if tracked2.arguments == "{}" then { tracked2 with arguments := fargs.getD "" }
        else { tracked2 with arguments := tracked2.arguments ++ fargs.getD "" }
      else tracked2
    let evs2 : List Event :=
      if argHit then [Event.toolInputDelta toolId (fargs.getD "")] else []
    (evs1 ++ evs2,
      { s with indexToId := idx, toolCalls := updateCall base toolId tracked3 })

/-- `for (const toolCall of delta.tool_calls)`. -/
def processFragments : StreamState → List ToolCallFragment → List Event × StreamState
  | s, [] => ([], s)
  | s, tc :: rest =>
    let p := processFragment s tc
    let q := processFragments p.2 rest
    (p.1 ++ q.1, q.2)

/-- Text content handling (lines 461-476): the single span id `"text-0"`;
`text-start` is emitted lazily before the first `text-delta`. -/
def processContent (s : StreamState) (content : String) : List Event × StreamState :=
  let id := "text-0"
  if s.textStarted.contains id then
    ([Event.textDelta id content], s)
  else
    ([Event.textStart id, Event.textDelta id content],
      { s with textStarted := s.textStarted ++ [id] })

/-- Flush of the tool-call map (the loop bodies at lines 357-374 and
427-443): for every entry not yet completed, in insertion order, emit
`tool-input-end` then `tool-call` and mark it completed. -/
def flushCalls : List ToolCallState → List Event × List ToolCallState
  | [] => ([], [])
  | c :: rest =>
    let head : List Event × ToolCallState :=
      if c.completed then ([], c)
      else
        ([Event.toolInputEnd c.id, Event.toolCall c.id c.name c.arguments],
          { c with completed := true })
    let q := flushCalls rest
    (head.1 ++ q.1, head.2 :: q.2)

/-- Flush of open text spans (lines 377-385 and 446-454): for every started
span not in `textEnded`, emit `text-end` and add it to `textEnded`. -/
def flushSpans : List String → List String → List Event × List String
  | ended, [] => ([], ended)
  | ended, id :: rest =>
    if ended.contains id then flushSpans ended rest
    else
      let q := flushSpans (ended ++ [id]) rest
      (Event.textEnd id :: q.1, q.2)

/-- One full flush: outstanding tool calls first, then open text spans. -/
def flushAll (s : StreamState) : List Event × StreamState :=
  let p := flushCalls s.toolCalls
  let q := flushSpans s.textEnded s.textStarted
  (p.1 ++ q.1, { s with toolCalls := p.2, textEnded := q.2 })

/-- Delta routing (lines 457-534): truthy text content first, then the
tool-call fragments. -/
def processDelta (s : StreamState) (d : Delta) : List Event × StreamState :=
  let p := if strTruthy d.content then processContent s (d.content.getD "") else ([], s)
  let q :=
    match d.tool_calls with
    | some tcs => processFragments p.2 tcs
    | none => ([], p.2)
  (p.1 ++ q.1, q.2)

/-- Processing of one decoded frame (lines 410-534): overwrite usage when
present, take the first choice (stop if none), on a truthy finish reason
record it and flush everything, then process the delta if present. -/
def processFrame (s : StreamState) (f : Frame) : List Event × StreamState :=
  let s0 : StreamState :=
    match f.usage with
    | some u => { s with usage := convUsage u }
    | none => s
  match f.choices.head? with
  | none => ([], s0)
  | some choice =>
    let p : List Event × StreamState :=
      if strTruthy choice.finish_reason then
        flushAll { s0 with
          finishReason := mapHeliconeFinishReason (choice.finish_reason.getD "") }
      else ([], s0)
    match choice.delta with
    | none => p
    | some d =>
      let q := processDelta p.2 d
      (p.1 ++ q.1, q.2)

/-- Processing of one SSE `data:` line: a payload that failed to parse as
JSON (`none`) is silently skipped by the `catch` (line 536-538). -/
def processLine (s : StreamState) : Option Frame → List Event × StreamState
  | none => ([], s)
  | some f => processFrame s f

/-- The main read loop over the decoded lines of the stream. -/
def processLines : StreamState → List (Option Frame) → List Event × StreamState
  | s, [] => ([], s)
  | s, l :: rest =>
    let p := processLine s l
    let q := processLines p.2 rest
    (p.1 ++ q.1, q.2)

/-- Initial session state (lines 330-346). -/
def initState : StreamState :=
  { usage := { inputTokens := 0, outputTokens := 0, totalTokens := 0 }
    finishReason := "stop"
    toolCalls := []
    indexToId := []
    textStarted := []
    textEnded := [] }

/-- A whole streaming invocation that ends normally (the `done` branch,
lines 356-393): process every decoded line, flush outstanding tool calls
and text spans, and emit the single terminal `finish` event. -/
def runStream (lines : List (Option Frame)) : List Event :=
  let p := processLines initState lines
  let q := flushAll p.2
  p.1 ++ q.1 ++ [Event.finish q.2.usage q.2.finishReason]

/-! ### Event classifiers, used to state the claims -/

/-- Does the event belong to the tool-call lifecycle of the given id? -/
def isToolEvOf (id : String) : Event → Bool
  | Event.toolInputStart i _ => i == id
  | Event.toolInputDelta i _ => i == id
  | Event.toolInputEnd i => i == id
  | Event.toolCall i _ _ => i == id
  | _ => false

/-- The tool-call id mentioned by a tool-lifecycle event, if any. -/
def toolIdOf : Event → Option String
  | Event.toolInputStart i _ => some i
  | Event.toolInputDelta i _ => some i
  | Event.toolInputEnd i => some i
  | Event.toolCall i _ _ => some i
  | _ => none

/-- Does the event belong to the text span of the given id? -/
def isTextEvOf (id : String) : Event → Bool
  | Event.textStart i => i == id
  | Event.textDelta i _ => i == id
  | Event.textEnd i => i == id
  | _ => false

/-- The text-span id mentioned by a text event, if any. -/
def textIdOf : Event → Option String
  | Event.textStart i => some i
  | Event.textDelta i _ => some i
  | Event.textEnd i => some i
  | _ => none

def isFinishEv : Event → Bool
  | Event.finish _ _ => true
  | _ => false

def isToolStartOf (id : String) : Event → Bool
  | Event.toolInputStart i _ => i == id
  | _ => false

def isToolDeltaOf (id : String) : Event → Bool
  | Event.toolInputDelta i _ => i == id
  | _ => false

def isToolEndOf (id : String) : Event → Bool
  | Event.toolInputEnd i => i == id
  | _ => false

def isToolCallOf (id : String) : Event → Bool
  | Event.toolCall i _ _ => i == id
  | _ => false

def isTextEndOf (id : String) : Event → Bool
  | Event.textEnd i => i == id
  | _ => false

def isToolDeltaEv : Event → Bool
  | Event.toolInputDelta _ _ => true
  | _ => false

/-- After the `tool-input-start`, a tool id's events must be deltas followed
by exactly `tool-input-end` then `tool-call`. -/
def toolTail (id : String) : List Event → Bool
  | [Event.toolInputEnd i, Event.toolCall j _ _] => i == id && j == id
  | Event.toolInputDelta i _ :: rest => i == id && toolTail id rest
  | _ => false

/-- The events of one tool id, in order, form
`tool-input-start · tool-input-delta* · tool-input-end · tool-call`. -/
def toolSeqOK (id : String) (evs : List Event) : Bool :=
  match evs.filter (isToolEvOf id) with
  | Event.toolInputStart i _ :: rest => i == id && toolTail id rest
  | _ => false

/-- After the `text-start`, a span's events are deltas followed by exactly
one `text-end`. -/
def textTail (id : String) : List Event → Bool
  | [Event.textEnd i] => i == id
  | Event.textDelta i _ :: rest => i == id && textTail id rest
  | _ => false

/-- The events of one text span, in order, form
`text-start · text-delta* · text-end`. -/
def textSeqOK (id : String) (evs : List Event) : Bool :=
  match evs.filter (isTextEvOf id) with
  | Event.textStart i :: rest => i == id && textTail id rest
  | _ => false

/-- The ordering invariant claimed for the emitted sequence: every tool id's
events are correctly bracketed, every text span's events are correctly
bracketed, and exactly one `finish` event is emitted, as the last event. -/
def orderingOK (evs : List Event) : Bool :=
  (evs.filterMap toolIdOf).all (fun id => toolSeqOK id evs)
    && (evs.filterMap textIdOf).all (fun id => textSeqOK id evs)
    && evs.countP isFinishEv == 1
    && (match evs.getLast? with
        | some (Event.finish _ _) => true
        | _ => false)

/-- The argument fragments delivered for a tool id, read off from the
emitted `tool-input-delta` events (one is emitted per truthy fragment). -/
def deltasFor (id : String) (evs : List Event) : List String :=
  evs.filterMap (fun e =>
    match e with
    | Event.toolInputDelta i d => if i == id then some d else none
    | _ => none)

/-- The argument-buffer accumulation discipline of lines 519-525: the
buffer starts at the `"{}"` sentinel; a fragment replaces the buffer when
it still equals the sentinel and is appended otherwise. -/
def applyFrags (l : List String) : String :=
  l.foldl (fun buf d => if buf == "{}" then d else buf ++ d) "{}"

/-! ### Input-stream classifiers, used as hypotheses of the claims -/

/-- A fragment that carries a truthy id also carries a truthy name. -/
def fragOK (tc : ToolCallFragment) : Bool :=
  !strTruthy tc.id || strTruthy (tc.function.bind FunctionFragment.name)

/-- All tool fragments of the frame's first choice satisfy `fragOK`. -/
def frameFragsOK (f : Frame) : Bool :=
  match f.choices.head? with
  | none => true
  | some c =>
    match c.delta with
    | none => true
    | some d => ((d.tool_calls.getD []).all fragOK)

/-- The frame's first choice carries no text content and no tool fragments. -/
def frameNoDelta (f : Frame) : Bool :=
  match f.choices.head? with
  | none => true
  | some c =>
    match c.delta with
    | none => true
    | some d => !strTruthy d.content && (d.tool_calls.getD []).isEmpty

/-- The frame's first choice carries a truthy finish reason. -/
def frameFinish (f : Frame) : Bool :=
  match f.choices.head? with
  | some c => strTruthy c.finish_reason
  | none => false

def lineNoDelta (l : Option Frame) : Bool :=
  match l with
  | none => true
  | some f => frameNoDelta f

/-- From the first finish-signal frame on, every frame is payload-free. -/
def wfPhase : List (Option Frame) → Bool
  | [] => true
  | none :: rest => wfPhase rest
  | some f :: rest =>
    if frameFinish f then frameNoDelta f && rest.all lineNoDelta
    else wfPhase rest

/-- Well-formed provider streams: calls are named on first mention, and a
finish signal carries no delta payload and is followed only by
payload-free frames (e.g. a trailing usage frame). -/
def wellFormed (lines : List (Option Frame)) : Bool :=
  (lines.all (fun l =>
    match l with
    | none => true
    | some f => frameFragsOK f)) && wfPhase lines

/-- The frame carries no usage object and no truthy finish reason. -/
def lineNoFinishNoUsage (l : Option Frame) : Bool :=
  match l with
  | none => true
  | some f => f.usage == none && !frameFinish f

/-- The frame carries no usage object. -/
def lineNoUsage (l : Option Frame) : Bool :=
  match l with
  | none => true
  | some f => f.usage == none

/-! ### Concrete input builders, used by witnesses and counterexamples -/

/-- A frame carrying only a text fragment. -/
def exTextFrame (s : String) : Frame :=
  { usage := none
    choices := [{ finish_reason := none
                  delta := some { content := some s, tool_calls := none } }] }

/-- A frame carrying tool-call fragments and possibly a finish reason. -/
def exToolFrame (fr : Option String) (tcs : List ToolCallFragment) : Frame :=
  { usage := none
    choices := [{ finish_reason := fr
                  delta := some { content := none, tool_calls := some tcs } }] }

/-- A tool-call fragment. -/
def exFrag (idx : Option Nat) (i nm args : Option String) : ToolCallFragment :=
  { index := idx, id := i, function := some { name := nm, arguments := args } }

/-- A usage object and a usage-only frame with an empty choice list. -/
def exUsage : Usage :=
  { prompt_tokens := some 1, completion_tokens := some 2, total_tokens := some 3 }

def exUsageFrame : Frame := { usage := some exUsage, choices := [] }

/-- The completed flag of the tracked call for `id` (`false` when the id is
not tracked). -/
def completedFlag (calls : List ToolCallState) (id : String) : Bool :=
  match findCall calls id with
  | some c => c.completed
  | none => false

/-- The freshly created tracked call for an id (line 499-504). -/
def freshCall (toolId : String) : ToolCallState :=
  { id := toolId, name := "", arguments := "{}", completed := false }

/-- Decomposition helpers restating the pieces of `processFragment` for a
resolved id, used by `processFragment_resolved`. -/
def trackedOf (s : StreamState) (toolId : String) : ToolCallState :=
  (findCall s.toolCalls toolId).getD (freshCall toolId)

def baseOf (s : StreamState) (toolId : String) : List ToolCallState :=
  if (findCall s.toolCalls toolId).isNone then s.toolCalls ++ [trackedOf s toolId]
  else s.toolCalls

def nameHitOf (s : StreamState) (tc : ToolCallFragment) (toolId : String) : Bool :=
  strTruthy (tc.function.bind FunctionFragment.name) && (trackedOf s toolId).name == ""

def tracked2Of (s : StreamState) (tc : ToolCallFragment) (toolId : String) : ToolCallState :=
  if nameHitOf s tc toolId then
    { trackedOf s toolId with name := (tc.function.bind FunctionFragment.name).getD "" }
  else trackedOf s toolId

def tracked3Of (s : StreamState) (tc : ToolCallFragment) (toolId : String) : ToolCallState :=
  if strTruthy (tc.function.bind FunctionFragment.arguments) then
    if (tracked2Of s tc toolId).arguments == "{}" then
      { tracked2Of s tc toolId with
          arguments := (tc.function.bind FunctionFragment.arguments).getD "" }
    else
      { tracked2Of s tc toolId with
          arguments := (tracked2Of s tc toolId).arguments ++
            (tc.function.bind FunctionFragment.arguments).getD "" }
  else tracked2Of s tc toolId

def fragEvsOf (s : StreamState) (tc : ToolCallFragment) (toolId : String) : List Event :=
  (if nameHitOf s tc toolId then
     [Event.toolInputStart toolId ((tc.function.bind FunctionFragment.name).getD "")]
   else []) ++
  (if strTruthy (tc.function.bind FunctionFragment.arguments) then
     [Event.toolInputDelta toolId ((tc.function.bind FunctionFragment.arguments).getD "")]
   else [])

/-- Invariant tying the emitted event counts to the session state: an
`tool-input-end`/`tool-call` has been emitted for an id exactly when its
tracked call is completed, a `text-end` exactly when the span is in
`textEnded`, and tracked ids are distinct (JS `Map` keys). -/
def atMostOnceInv (s : StreamState) (evs : List Event) : Prop :=
  (∀ id, evs.countP (isToolEndOf id) = if completedFlag s.toolCalls id then 1 else 0) ∧
  (∀ id, evs.countP (isToolCallOf id) = if completedFlag s.toolCalls id then 1 else 0) ∧
  (∀ id, evs.countP (isTextEndOf id) = if s.textEnded.contains id then 1 else 0) ∧
  (s.toolCalls.map (fun c => c.id)).Nodup

/-- Has a (truthy) name been recorded for the tracked call of `id`?  The
code sets the name exactly when it emits `tool-input-start`. -/
def namedFlag (calls : List ToolCallState) (id : String) : Bool :=
  match findCall calls id with
  | some c => c.name != ""
  | none => false

/-- Invariant: `tool-input-start` has been emitted for an id exactly when
its tracked call carries a nonempty name. -/
def startOnceInv (s : StreamState) (evs : List Event) : Prop :=
  ∀ id, evs.countP (isToolStartOf id) = if namedFlag s.toolCalls id then 1 else 0

/-- Invariant tying each tracked call's argument buffer to the
`tool-input-delta` fragments emitted for it: the buffer equals the
fragments folded through the sentinel-replace/append discipline. -/
def bufferInv (s : StreamState) (evs : List Event) : Prop :=
  (∀ c ∈ s.toolCalls, c.arguments = applyFrags (deltasFor c.id evs)) ∧
  (∀ id, findCall s.toolCalls id = none → deltasFor id evs = [])

def isTextDeltaOf (id : String) : Event → Bool
  | Event.textDelta i _ => i == id
  | _ => false

/-- Invariant holding while no flush has happened yet (well-formed
streams): every tracked call is uncompleted, named, and its events so far
are one `tool-input-start` followed by deltas; untracked ids have no
events; the single text span is either untouched or open; no finish event;
tracked ids are distinct and every mapped index points at a tracked id. -/
def openInv (s : StreamState) (evs : List Event) : Prop :=
  (∀ c ∈ s.toolCalls, c.completed = false ∧ c.name ≠ "" ∧
    ∃ nm ds, evs.filter (isToolEvOf c.id) = Event.toolInputStart c.id nm :: ds ∧
      ∀ e ∈ ds, isToolDeltaOf c.id e = true) ∧
  (∀ id, findCall s.toolCalls id = none → evs.filter (isToolEvOf id) = []) ∧
  ((s.textStarted = [] ∧ s.textEnded = [] ∧ evs.filter (isTextEvOf "text-0") = []) ∨
   (s.textStarted = ["text-0"] ∧ s.textEnded = [] ∧
    ∃ ds, evs.filter (isTextEvOf "text-0") = Event.textStart "text-0" :: ds ∧
      ∀ e ∈ ds, isTextDeltaOf "text-0" e = true)) ∧
  (∀ id, id ≠ "text-0" → evs.filter (isTextEvOf id) = []) ∧
  evs.countP isFinishEv = 0 ∧
  (s.toolCalls.map (fun c => c.id)).Nodup ∧
  (∀ p ∈ s.indexToId, (findCall s.toolCalls p.2).isSome = true)

/-- Invariant holding after a flush on a well-formed stream: every tracked
call is completed with a fully bracketed event subsequence, the text span
(if any) is fully bracketed, and every started span has been ended. -/
def closedInv (s : StreamState) (evs : List Event) : Prop :=
  (∀ c ∈ s.toolCalls, c.completed = true ∧ toolSeqOK c.id evs = true) ∧
  (∀ id, findCall s.toolCalls id = none → evs.filter (isToolEvOf id) = []) ∧
  (evs.filter (isTextEvOf "text-0") = [] ∨ textSeqOK "text-0" evs = true) ∧
  (∀ id, id ≠ "text-0" → evs.filter (isTextEvOf id) = []) ∧
  evs.countP isFinishEv = 0 ∧
  (∀ i ∈ s.textStarted, i ∈ s.textEnded)

/-! ### Unfolding and preservation lemmas -/


theorem processLines_append (s : StreamState) (a b : List (Option Frame)) :
    processLines s (a ++ b) =
      ((processLines s a).1 ++ (processLines (processLines s a).2 b).1,
        (processLines (processLines s a).2 b).2) := by
  induction a generalizing s with
  | nil => simp [processLines]
  | cons l rest ih => simp [processLines, ih]

@[simp] theorem flushAll_usage (s : StreamState) : (flushAll s).2.usage = s.usage := rfl

@[simp] theorem flushAll_finishReason (s : StreamState) :
    (flushAll s).2.finishReason = s.finishReason := rfl

@[simp] theorem flushAll_indexToId (s : StreamState) :
    (flushAll s).2.indexToId = s.indexToId := rfl

@[simp] theorem flushAll_textStarted (s : StreamState) :
    (flushAll s).2.textStarted = s.textStarted := rfl

@[simp] theorem processContent_usage (s : StreamState) (c : String) :
    (processContent s c).2.usage = s.usage := by
  simp only [processContent]; split <;> rfl

@[simp] theorem processContent_finishReason (s : StreamState) (c : String) :
    (processContent s c).2.finishReason = s.finishReason := by
  simp only [processContent]; split <;> rfl

@[simp] theorem processContent_toolCalls (s : StreamState) (c : String) :
    (processContent s c).2.toolCalls = s.toolCalls := by
  simp only [processContent]; split <;> rfl

@[simp] theorem processContent_indexToId (s : StreamState) (c : String) :
    (processContent s c).2.indexToId = s.indexToId := by
  simp only [processContent]; split <;> rfl

@[simp] theorem processContent_textEnded (s : StreamState) (c : String) :
    (processContent s c).2.textEnded = s.textEnded := by
  simp only [processContent]; split <;> rfl

@[simp] theorem processFragment_usage (s : StreamState) (tc : ToolCallFragment) :
    (processFragment s tc).2.usage = s.usage := by
  unfold processFragment
  rcases resolveToolId s.indexToId tc with _ | ⟨toolId, idx⟩
  · rfl
  · rfl

@[simp] theorem processFragment_finishReason (s : StreamState) (tc : ToolCallFragment) :
    (processFragment s tc).2.finishReason = s.finishReason := by
  unfold processFragment
  rcases resolveToolId s.indexToId tc with _ | ⟨toolId, idx⟩
  · rfl
  · rfl

@[simp] theorem processFragment_textStarted (s : StreamState) (tc : ToolCallFragment) :
    (processFragment s tc).2.textStarted = s.textStarted := by
  unfold processFragment
  rcases resolveToolId s.indexToId tc with _ | ⟨toolId, idx⟩
  · rfl
  · rfl

@[simp] theorem processFragment_textEnded (s : StreamState) (tc : ToolCallFragment) :
    (processFragment s tc).2.textEnded = s.textEnded := by
  unfold processFragment
  rcases resolveToolId s.indexToId tc with _ | ⟨toolId, idx⟩
  · rfl
  · rfl

@[simp] theorem processFragments_usage (s : StreamState) (tcs : List ToolCallFragment) :
    (processFragments s tcs).2.usage = s.usage := by
  induction tcs generalizing s with
  | nil => rfl
  | cons tc rest ih => simp [processFragments, ih]

@[simp] theorem processFragments_finishReason (s : StreamState) (tcs : List ToolCallFragment) :
    (processFragments s tcs).2.finishReason = s.finishReason := by
  induction tcs generalizing s with
  | nil => rfl
  | cons tc rest ih => simp [processFragments, ih]

@[simp] theorem processFragments_textStarted (s : StreamState) (tcs : List ToolCallFragment) :
    (processFragments s tcs).2.textStarted = s.textStarted := by
  induction tcs generalizing s with
  | nil => rfl
  | cons tc rest ih => simp [processFragments, ih]

@[simp] theorem processFragments_textEnded (s : StreamState) (tcs : List ToolCallFragment) :
    (processFragments s tcs).2.textEnded = s.textEnded := by
  induction tcs generalizing s with
  | nil => rfl
  | cons tc rest ih => simp [processFragments, ih]

@[simp] theorem processDelta_usage (s : StreamState) (d : Delta) :
    (processDelta s d).2.usage = s.usage := by
  unfold processDelta
  cases d.tool_calls <;> split_ifs <;> simp

@[simp] theorem processDelta_finishReason (s : StreamState) (d : Delta) :
    (processDelta s d).2.finishReason = s.finishReason := by
  unfold processDelta
  cases d.tool_calls <;> split_ifs <;> simp

theorem processFrame_usage (s : StreamState) (f : Frame) :
    (processFrame s f).2.usage =
      (match f.usage with | some u => convUsage u | none => s.usage) := by
  unfold processFrame
  cases f.usage <;> cases f.choices.head? <;> dsimp only
  case none.some c | some.some c =>
    cases c.delta <;> split_ifs <;> simp

theorem processFrame_finishReason_of_noFinish (s : StreamState) (f : Frame)
    (h : frameFinish f = false) :
    (processFrame s f).2.finishReason = s.finishReason := by
  unfold processFrame
  unfold frameFinish at h
  cases hc : f.choices.head? with
  | none => cases f.usage <;> rfl
  | some c =>
    rw [hc] at h
    have h' : strTruthy c.finish_reason = false := h
    dsimp only
    rw [if_neg (by simp [h'])]
    cases c.delta with
    | none => cases f.usage <;> rfl
    | some d =>
      dsimp only
      rw [processDelta_finishReason]
      cases f.usage <;> rfl

theorem processLines_noFinishNoUsage (lines : List (Option Frame)) (s : StreamState)
    (h : lines.all lineNoFinishNoUsage = true) :
    (processLines s lines).2.usage = s.usage ∧
      (processLines s lines).2.finishReason = s.finishReason := by
  induction lines generalizing s with
  | nil => exact ⟨rfl, rfl⟩
  | cons l rest ih =>
    simp only [List.all_cons, Bool.and_eq_true] at h
    obtain ⟨h1, h2⟩ := h
    cases l with
    | none => simpa [processLines, processLine] using ih _ h2
    | some f =>
      unfold lineNoFinishNoUsage at h1
      simp only [Bool.and_eq_true, beq_iff_eq, Bool.not_eq_true'] at h1
      obtain ⟨hu, hf⟩ := h1
      have e1 : (processFrame s f).2.usage = s.usage := by
        rw [processFrame_usage, hu]
      have e2 := processFrame_finishReason_of_noFinish s f hf
      obtain ⟨i1, i2⟩ := ih (processFrame s f).2 h2
      constructor
      · simp only [processLines, processLine]
        rw [i1, e1]
      · simp only [processLines, processLine]
        rw [i2, e2]

theorem processLines_noUsage (lines : List (Option Frame)) (s : StreamState)
    (h : lines.all lineNoUsage = true) :
    (processLines s lines).2.usage = s.usage := by
  induction lines generalizing s with
  | nil => rfl
  | cons l rest ih =>
    simp only [List.all_cons, Bool.and_eq_true] at h
    obtain ⟨h1, h2⟩ := h
    cases l with
    | none => simpa [processLines, processLine] using ih _ h2
    | some f =>
      unfold lineNoUsage at h1
      simp only [beq_iff_eq] at h1
      have e1 : (processFrame s f).2.usage = s.usage := by
        rw [processFrame_usage, h1]
      simp only [processLines, processLine]
      rw [ih _ h2, e1]

/-! ### Claim C4 -/

/-- C4: for every stream in which no frame carries a finish signal and no
frame carries a usage object, the emitted `finish` event carries usage with
`inputTokens`, `outputTokens` and `totalTokens` all zero and `finishReason`
equal to `"stop"`. -/
theorem spec_C4_default_finish (lines : List (Option Frame))
    (h : lines.all lineNoFinishNoUsage = true) :
    (runStream lines).getLast? =
      some (Event.finish
        { inputTokens := 0, outputTokens := 0, totalTokens := 0 } "stop") := by
  obtain ⟨hu, hf⟩ := processLines_noFinishNoUsage lines initState h
  unfold runStream
  rw [List.getLast?_concat, flushAll_usage, flushAll_finishReason, hu, hf]
  rfl

/-- Witness for C4 at a concrete one-frame text stream. -/
theorem spec_C4_default_finish_witness :
    ([some (exTextFrame "hi")].all lineNoFinishNoUsage = true) ∧
      (runStream [some (exTextFrame "hi")]).getLast? =
        some (Event.finish
          { inputTokens := 0, outputTokens := 0, totalTokens := 0 } "stop") :=
  ⟨by decide, spec_C4_default_finish _ (by decide)⟩

/-! ### Claim C5 -/

/-- C5: a frame whose data payload fails to parse as JSON is dropped and
only that frame: the produced event sequence is the one of the stream
without it (no error is surfaced, processing continues), and in particular
a malformed frame between two valid text-delta frames yields exactly two
`text-delta` events sharing a single `text-start`/`text-end` pair. -/
theorem spec_C5_malformed_frame_dropped :
    (∀ (pre post : List (Option Frame)),
       runStream (pre ++ none :: post) = runStream (pre ++ post)) ∧
      runStream [some (exTextFrame "Hello"), none, some (exTextFrame "World")] =
        [Event.textStart "text-0", Event.textDelta "text-0" "Hello",
          Event.textDelta "text-0" "World", Event.textEnd "text-0",
          Event.finish { inputTokens := 0, outputTokens := 0, totalTokens := 0 } "stop"] := by
  constructor
  · intro pre post
    have h : ∀ (s : StreamState) (pre post : List (Option Frame)),
        processLines s (pre ++ none :: post) = processLines s (pre ++ post) := by
      intro s pre post
      induction pre generalizing s with
      | nil => simp [processLines, processLine]
      | cons l rest ih => simp [processLines, ih]
    unfold runStream
    rw [h]
  · decide

/-! ### Claim C6 -/

/-- C6: resolution of a tool-call fragment to an id: a truthy id is
authoritative and (when an index is present) the index→id mapping is set to
it; otherwise an already-mapped index resolves to the mapped id with no
mapping change; otherwise the fragment is dropped silently, producing no
event and no state change. -/
theorem spec_C6_id_resolution :
    (∀ (m : List (Nat × String)) (tc : ToolCallFragment) (i : String),
       tc.id = some i → i ≠ "" →
       resolveToolId m tc =
         some (i, match tc.index with
                  | some n => setIdx m n i
                  | none => m)) ∧
    (∀ (m : List (Nat × String)) (tc : ToolCallFragment) (n : Nat) (j : String),
       strTruthy tc.id = false → tc.index = some n → m.lookup n = some j →
       resolveToolId m tc = some (j, m)) ∧
    (∀ (s : StreamState) (tc : ToolCallFragment),
       strTruthy tc.id = false →
       (∀ n, tc.index = some n → s.indexToId.lookup n = none) →
       processFragment s tc = ([], s)) := by
  refine ⟨?_, ?_, ?_⟩
  · intro m tc i hid hne
    unfold resolveToolId
    rw [hid]
    have ht : strTruthy (some i) = true := by simp [strTruthy, hne]
    rw [if_pos ht]
    cases tc.index <;> simp
  · intro m tc n j hid hidx hlook
    unfold resolveToolId
    rw [if_neg (by simp [hid]), hidx]
    dsimp only
    rw [hlook]
  · intro s tc hid hunmapped
    have hres : resolveToolId s.indexToId tc = none := by
      unfold resolveToolId
      rw [if_neg (by simp [hid])]
      cases hidx : tc.index with
      | none => rfl
      | some n =>
        dsimp only
        rw [hunmapped n hidx]
    unfold processFragment
    rw [hres]

/-- Witness for C6 at concrete fragments: an id-bearing fragment with an
index, an index-only fragment with a mapped index, and an index-only
fragment with an unmapped index. -/
theorem spec_C6_id_resolution_witness :
    resolveToolId [] (exFrag (some 0) (some "c1") (some "f") none) =
        some ("c1", setIdx [] 0 "c1") ∧
      resolveToolId [(0, "c1")] (exFrag (some 0) none none (some "x")) =
        some ("c1", [(0, "c1")]) ∧
      processFragment initState (exFrag (some 3) none none (some "x")) =
        ([], initState) :=
  ⟨spec_C6_id_resolution.1 [] _ "c1" rfl (by decide),
    spec_C6_id_resolution.2.1 [(0, "c1")] _ 0 "c1" (by decide) rfl rfl,
    spec_C6_id_resolution.2.2 initState _ (by decide)
      (by intro n h; cases h; rfl)⟩

/-! ### Claim C7 -/

/-- C7: whenever a frame carries a usage object — whatever its choice list —
the session usage is overwritten wholesale with that frame's values, so the
`finish` event reports the usage of the last usage-bearing frame. -/
theorem spec_C7_usage_last_writer_wins :
    (∀ (s : StreamState) (f : Frame) (u : Usage), f.usage = some u →
       (processFrame s f).2.usage = convUsage u) ∧
    (∀ (pre post : List (Option Frame)) (f : Frame) (u : Usage),
       f.usage = some u → post.all lineNoUsage = true →
       ∃ r, (runStream (pre ++ some f :: post)).getLast? =
         some (Event.finish (convUsage u) r)) := by
  have ha : ∀ (s : StreamState) (f : Frame) (u : Usage), f.usage = some u →
      (processFrame s f).2.usage = convUsage u := by
    intro s f u hu
    rw [processFrame_usage, hu]
  refine ⟨ha, ?_⟩
  intro pre post f u hu hpost
  refine ⟨(flushAll (processLines initState (pre ++ some f :: post)).2).2.finishReason, ?_⟩
  unfold runStream
  rw [List.getLast?_concat, flushAll_usage]
  have : (processLines initState (pre ++ some f :: post)).2.usage = convUsage u := by
    rw [processLines_append]
    simp only [processLines, processLine]
    rw [processLines_noUsage post _ hpost]
    exact ha _ f u hu
  rw [this]

/-- Witness for C7 at a concrete usage-only frame with an empty choice
list. -/
theorem spec_C7_usage_last_writer_wins_witness :
    exUsageFrame.usage = some exUsage ∧
      ∃ r, (runStream ([] ++ some exUsageFrame :: [])).getLast? =
        some (Event.finish (convUsage exUsage) r) :=
  ⟨rfl, spec_C7_usage_last_writer_wins.2 [] [] _ _ rfl (by decide)⟩

/-! ### Association-list lemmas for the tracked tool-call map -/

theorem findCall_id {calls : List ToolCallState} {id : String} {c : ToolCallState}
    (h : findCall calls id = some c) : c.id = id := by
  have := List.find?_some h
  simpa using this

theorem findCall_cons_self {c : ToolCallState} {rest : List ToolCallState} {id : String}
    (h : c.id = id) : findCall (c :: rest) id = some c := by
  unfold findCall
  exact List.find?_cons_of_pos _ (by simp [h])

theorem findCall_cons_ne {c : ToolCallState} {rest : List ToolCallState} {id : String}
    (h : c.id ≠ id) : findCall (c :: rest) id = findCall rest id := by
  unfold findCall
  exact List.find?_cons_of_neg _ (by simp [h])

theorem findCall_eq_none {calls : List ToolCallState} {id : String} :
    findCall calls id = none ↔ id ∉ calls.map (fun c => c.id) := by
  unfold findCall
  rw [List.find?_eq_none]
  simp

theorem findCall_updateCall_ne (calls : List ToolCallState) {id id' : String}
    {c' : ToolCallState} (hc' : c'.id = id) (h : id' ≠ id) :
    findCall (updateCall calls id c') id' = findCall calls id' := by
  induction calls with
  | nil => rfl
  | cons c rest ih =>
    simp only [updateCall, List.map_cons]
    by_cases hc : c.id = id
    · rw [if_pos (by simp [hc])]
      rw [findCall_cons_ne (by rw [hc']; exact fun hh => h hh.symm),
        findCall_cons_ne (by rw [hc]; exact fun hh => h hh.symm)]
      exact ih
    · rw [if_neg (by simp [hc])]
      by_cases hcid : c.id = id'
      · rw [findCall_cons_self hcid, findCall_cons_self hcid]
      · rw [findCall_cons_ne hcid, findCall_cons_ne hcid]
        exact ih

theorem findCall_updateCall_self (calls : List ToolCallState) {id : String}
    {c' : ToolCallState} (hc' : c'.id = id) :
    findCall (updateCall calls id c') id =
      if (findCall calls id).isSome then some c' else none := by
  induction calls with
  | nil => rfl
  | cons c rest ih =>
    simp only [updateCall, List.map_cons]
    by_cases hc : c.id = id
    · rw [if_pos (by simp [hc])]
      rw [findCall_cons_self hc', findCall_cons_self hc]
      rfl
    · rw [if_neg (by simp [hc])]
      rw [findCall_cons_ne hc, findCall_cons_ne hc]
      exact ih

theorem updateCall_ids (calls : List ToolCallState) {id : String} {c' : ToolCallState}
    (hc' : c'.id = id) :
    (updateCall calls id c').map (fun c => c.id) = calls.map (fun c => c.id) := by
  induction calls with
  | nil => rfl
  | cons c rest ih =>
    simp only [updateCall, List.map_cons] at *
    by_cases hc : c.id = id
    · rw [if_pos (by simp [hc])]
      rw [ih]
      simp [hc', hc]
    · rw [if_neg (by simp [hc])]
      rw [ih]

/-! ### The resolved branch of `processFragment` -/

theorem processFragment_resolved {s : StreamState} {tc : ToolCallFragment}
    {toolId : String} {idx : List (Nat × String)}
    (hres : resolveToolId s.indexToId tc = some (toolId, idx)) :
    processFragment s tc =
      (fragEvsOf s tc toolId,
        { s with indexToId := idx,
                 toolCalls := updateCall (baseOf s toolId) toolId (tracked3Of s tc toolId) }) := by
  unfold processFragment
  rw [hres]
  rfl

theorem trackedOf_id (s : StreamState) (toolId : String) :
    (trackedOf s toolId).id = toolId := by
  unfold trackedOf
  cases h : findCall s.toolCalls toolId with
  | none => rfl
  | some c => simpa using findCall_id h

theorem tracked2Of_id (s : StreamState) (tc : ToolCallFragment) (toolId : String) :
    (tracked2Of s tc toolId).id = toolId := by
  unfold tracked2Of
  split_ifs <;> simp [trackedOf_id]

theorem tracked3Of_id (s : StreamState) (tc : ToolCallFragment) (toolId : String) :
    (tracked3Of s tc toolId).id = toolId := by
  unfold tracked3Of
  split_ifs <;> simp [tracked2Of_id]

theorem tracked2Of_completed (s : StreamState) (tc : ToolCallFragment) (toolId : String) :
    (tracked2Of s tc toolId).completed = (trackedOf s toolId).completed := by
  unfold tracked2Of
  split_ifs <;> rfl

theorem tracked3Of_completed (s : StreamState) (tc : ToolCallFragment) (toolId : String) :
    (tracked3Of s tc toolId).completed = (trackedOf s toolId).completed := by
  unfold tracked3Of
  split_ifs <;> simp [tracked2Of_completed]

theorem tracked2Of_arguments (s : StreamState) (tc : ToolCallFragment) (toolId : String) :
    (tracked2Of s tc toolId).arguments = (trackedOf s toolId).arguments := by
  unfold tracked2Of
  split_ifs <;> rfl

theorem findCall_baseOf_self (s : StreamState) (toolId : String) :
    findCall (baseOf s toolId) toolId = some (trackedOf s toolId) := by
  unfold baseOf trackedOf
  cases h : findCall s.toolCalls toolId with
  | none =>
    simp only [h, Option.isNone_none, if_pos, Option.getD_none]
    unfold findCall at h ⊢
    rw [List.find?_append, h]
    simp [freshCall]
  | some c => simp [h]

theorem findCall_baseOf_ne (s : StreamState) (toolId id' : String) (h : id' ≠ toolId) :
    findCall (baseOf s toolId) id' = findCall s.toolCalls id' := by
  unfold baseOf
  cases hf : findCall s.toolCalls toolId with
  | none =>
    simp only [hf, Option.isNone_none, if_pos]
    unfold findCall
    rw [List.find?_append]
    have : (trackedOf s toolId).id ≠ id' := by
      rw [trackedOf_id]; exact fun hh => h hh.symm
    simp [this]
  | some c => simp [hf]

theorem baseOf_ids (s : StreamState) (toolId : String) :
    (baseOf s toolId).map (fun c => c.id) =
      if (findCall s.toolCalls toolId).isNone then
        s.toolCalls.map (fun c => c.id) ++ [toolId]
      else s.toolCalls.map (fun c => c.id) := by
  unfold baseOf
  split <;> simp [trackedOf_id]

theorem processFragment_nodup {s : StreamState} {tc : ToolCallFragment}
    (hnd : (s.toolCalls.map (fun c => c.id)).Nodup) :
    ((processFragment s tc).2.toolCalls.map (fun c => c.id)).Nodup := by
  cases hres : resolveToolId s.indexToId tc with
  | none =>
    unfold processFragment
    rw [hres]
    exact hnd
  | some p =>
    obtain ⟨toolId, idx⟩ := p
    rw [processFragment_resolved hres]
    dsimp only
    rw [updateCall_ids _ (tracked3Of_id s tc toolId), baseOf_ids]
    split
    · rename_i hn
      have hnotin : toolId ∉ s.toolCalls.map (fun c => c.id) :=
        findCall_eq_none.mp (Option.isNone_iff_eq_none.mp hn)
      simp [List.nodup_append, hnd, hnotin]
    · exact hnd

theorem completedFlag_processFragment (s : StreamState) (tc : ToolCallFragment)
    (id : String) :
    completedFlag (processFragment s tc).2.toolCalls id = completedFlag s.toolCalls id := by
  cases hres : resolveToolId s.indexToId tc with
  | none =>
    unfold processFragment
    rw [hres]
  | some p =>
    obtain ⟨toolId, idx⟩ := p
    rw [processFragment_resolved hres]
    unfold completedFlag
    dsimp only
    by_cases hid : id = toolId
    · subst hid
      rw [findCall_updateCall_self _ (tracked3Of_id s tc id), findCall_baseOf_self]
      simp only [Option.isSome_some, if_pos]
      rw [tracked3Of_completed]
      unfold trackedOf
      cases hf : findCall s.toolCalls id <;> simp [freshCall]
    · rw [findCall_updateCall_ne _ (tracked3Of_id s tc toolId) hid,
        findCall_baseOf_ne s toolId id hid]

theorem processFragment_countP_zero (s : StreamState) (tc : ToolCallFragment)
    (p : Event → Bool)
    (hstart : ∀ i n, p (Event.toolInputStart i n) = false)
    (hdelta : ∀ i d, p (Event.toolInputDelta i d) = false) :
    (processFragment s tc).1.countP p = 0 := by
  cases hres : resolveToolId s.indexToId tc with
  | none =>
    unfold processFragment
    rw [hres]
    rfl
  | some q =>
    obtain ⟨toolId, idx⟩ := q
    rw [processFragment_resolved hres]
    dsimp only
    unfold fragEvsOf
    rw [List.countP_append]
    split_ifs <;> simp [List.countP_cons, hstart, hdelta]

/-! ### Flush lemmas -/

theorem flushCalls_countP_zero (calls : List ToolCallState) (p : Event → Bool)
    (hend : ∀ i, p (Event.toolInputEnd i) = false)
    (hcall : ∀ i n a, p (Event.toolCall i n a) = false) :
    (flushCalls calls).1.countP p = 0 := by
  induction calls with
  | nil => rfl
  | cons c rest ih =>
    unfold flushCalls
    dsimp only
    split_ifs <;> simp [List.countP_append, List.countP_cons, hend, hcall, ih]

theorem flushSpans_countP_zero (started ended : List String) (p : Event → Bool)
    (hend : ∀ i, p (Event.textEnd i) = false) :
    (flushSpans ended started).1.countP p = 0 := by
  induction started generalizing ended with
  | nil => rfl
  | cons a rest ih =>
    unfold flushSpans
    split_ifs <;> simp [List.countP_cons, hend, ih]

theorem flushCalls_countP_end (calls : List ToolCallState) (id : String)
    (hnd : (calls.map (fun c => c.id)).Nodup) :
    (flushCalls calls).1.countP (isToolEndOf id) =
      if completedFlag calls id then 0
      else if (findCall calls id).isSome then 1 else 0 := by
  induction calls with
  | nil => simp [flushCalls, completedFlag, findCall]
  | cons c rest ih =>
    rw [List.map_cons, List.nodup_cons] at hnd
    obtain ⟨hnotin, hndr⟩ := hnd
    unfold flushCalls
    dsimp only
    rw [List.countP_append]
    by_cases hcid : c.id = id
    · have hfr : findCall rest id = none := by
        rw [findCall_eq_none]
        rw [hcid] at hnotin
        exact hnotin
      have hflagr : completedFlag rest id = false := by
        unfold completedFlag
        rw [hfr]
      rw [ih hndr, hfr, hflagr]
      unfold completedFlag
      rw [findCall_cons_self hcid]
      by_cases hcc : c.completed
      · rw [if_pos hcc]
        simp [hcc]
      · rw [if_neg hcc]
        simp only [Bool.not_eq_true] at hcc
        simp [hcc, List.countP_cons, isToolEndOf, isToolCallOf, hcid]
    · have e1 : completedFlag (c :: rest) id = completedFlag rest id := by
        unfold completedFlag
        rw [findCall_cons_ne hcid]
      have e2 : findCall (c :: rest) id = findCall rest id := findCall_cons_ne hcid
      rw [e1, e2, ih hndr]
      split_ifs <;> simp [List.countP_cons, isToolEndOf, hcid]

theorem flushCalls_countP_call (calls : List ToolCallState) (id : String)
    (hnd : (calls.map (fun c => c.id)).Nodup) :
    (flushCalls calls).1.countP (isToolCallOf id) =
      if completedFlag calls id then 0
      else if (findCall calls id).isSome then 1 else 0 := by
  induction calls with
  | nil => simp [flushCalls, completedFlag, findCall]
  | cons c rest ih =>
    rw [List.map_cons, List.nodup_cons] at hnd
    obtain ⟨hnotin, hndr⟩ := hnd
    unfold flushCalls
    dsimp only
    rw [List.countP_append]
    by_cases hcid : c.id = id
    · have hfr : findCall rest id = none := by
        rw [findCall_eq_none]
        rw [hcid] at hnotin
        exact hnotin
      have hflagr : completedFlag rest id = false := by
        unfold completedFlag
        rw [hfr]
      rw [ih hndr, hfr, hflagr]
      unfold completedFlag
      rw [findCall_cons_self hcid]
      by_cases hcc : c.completed
      · rw [if_pos hcc]
        simp [hcc]
      · rw [if_neg hcc]
        simp only [Bool.not_eq_true] at hcc
        simp [hcc, List.countP_cons, isToolEndOf, isToolCallOf, hcid]
    · have e1 : completedFlag (c :: rest) id = completedFlag rest id := by
        unfold completedFlag
        rw [findCall_cons_ne hcid]
      have e2 : findCall (c :: rest) id = findCall rest id := findCall_cons_ne hcid
      rw [e1, e2, ih hndr]
      split_ifs <;> simp [List.countP_cons, isToolCallOf, hcid]

theorem flushCalls_snd_findCall (calls : List ToolCallState) (id : String) :
    findCall (flushCalls calls).2 id =
      (findCall calls id).map (fun c => { c with completed := true }) := by
  induction calls with
  | nil => rfl
  | cons c rest ih =>
    unfold flushCalls
    dsimp only
    by_cases hcid : c.id = id
    · by_cases hcc : c.completed
      · rw [if_pos hcc]
        rw [findCall_cons_self hcid, findCall_cons_self hcid]
        obtain ⟨i, n, a, comp⟩ := c
        simp only at hcc
        rw [hcc]
        rfl
      · rw [if_neg hcc]
        rw [findCall_cons_self (show ({ c with completed := true } : ToolCallState).id = id from hcid),
          findCall_cons_self hcid]
        rfl
    · have h1 : ∀ b : Bool, ((if c.completed then ([], c)
          else (([Event.toolInputEnd c.id, Event.toolCall c.id c.name c.arguments] : List Event),
            { c with completed := true })) : List Event × ToolCallState).2.id ≠ id := by
        intro b
        split_ifs <;> exact hcid
      rw [findCall_cons_ne (h1 true), findCall_cons_ne hcid]
      exact ih

theorem flushCalls_completedFlag (calls : List ToolCallState) (id : String) :
    completedFlag (flushCalls calls).2 id = (findCall calls id).isSome := by
  unfold completedFlag
  rw [flushCalls_snd_findCall]
  cases findCall calls id <;> rfl

theorem flushCalls_ids (calls : List ToolCallState) :
    (flushCalls calls).2.map (fun c => c.id) = calls.map (fun c => c.id) := by
  induction calls with
  | nil => rfl
  | cons c rest ih =>
    unfold flushCalls
    dsimp only
    split_ifs <;> simp [ih]

theorem contains_concat (l : List String) (a x : String) :
    (l ++ [a]).contains x = (l.contains x || x == a) := by
  induction l with
  | nil => simp [List.contains_cons, Bool.beq_eq_decide_eq]
  | cons b rest ih => simp [List.contains_cons, ih, Bool.or_assoc, Bool.beq_eq_decide_eq]

theorem flushSpans_contains (started ended : List String) (id : String) :
    (flushSpans ended started).2.contains id = (ended.contains id || started.contains id) := by
  induction started generalizing ended with
  | nil => simp [flushSpans]
  | cons a rest ih =>
    unfold flushSpans
    by_cases ha : ended.contains a
    · rw [if_pos ha, ih]
      by_cases hid : id = a
      · subst hid
        simp only [List.contains_cons, beq_self_eq_true, Bool.true_or, ha, Bool.or_self]
      · simp only [List.contains_cons, beq_eq_false_iff_ne.mpr hid, Bool.false_or]
    · rw [if_neg ha]
      dsimp only
      rw [ih, contains_concat]
      simp only [List.contains_cons, Bool.or_assoc]

theorem flushSpans_countP_end (started ended : List String) (id : String) :
    (flushSpans ended started).1.countP (isTextEndOf id) =
      if ended.contains id then 0
      else if started.contains id then 1 else 0 := by
  induction started generalizing ended with
  | nil => simp [flushSpans]
  | cons a rest ih =>
    unfold flushSpans
    by_cases ha : ended.contains a
    · rw [if_pos ha, ih]
      by_cases hid : id = a
      · subst hid
        simp only [ha, if_true]
      · simp only [List.contains_cons, beq_eq_false_iff_ne.mpr hid, Bool.false_or]
    · rw [if_neg ha]
      dsimp only
      rw [List.countP_cons, ih, contains_concat]
      by_cases hid : id = a
      · subst hid
        have h1 : isTextEndOf id (Event.textEnd id) = true := by simp [isTextEndOf]
        simp only [beq_self_eq_true, Bool.or_true, if_true, h1, ha, Bool.false_eq_true,
          if_false, List.contains_cons, Bool.true_or]
      · have h1 : isTextEndOf id (Event.textEnd a) = false := by
          simp [isTextEndOf]
          exact fun hh => hid hh.symm
        simp only [beq_eq_false_iff_ne.mpr hid, Bool.or_false, h1, Bool.false_eq_true,
          if_false, Nat.add_zero, List.contains_cons, Bool.false_or]

/-! ### Preservation of the at-most-once invariant -/

theorem processContent_countP_zero (s : StreamState) (c : String) (p : Event → Bool)
    (h1 : ∀ i, p (Event.textStart i) = false)
    (h2 : ∀ i d, p (Event.textDelta i d) = false) :
    (processContent s c).1.countP p = 0 := by
  simp only [processContent]
  split <;> simp [List.countP_cons, h1, h2]

theorem atMostOnceInv_flushAll {s : StreamState} {evs : List Event}
    (h : atMostOnceInv s evs) : atMostOnceInv (flushAll s).2 (evs ++ (flushAll s).1) := by
  obtain ⟨hE, hC, hT, hnd⟩ := h
  unfold flushAll
  dsimp only
  refine ⟨?_, ?_, ?_, ?_⟩
  · intro id
    rw [List.countP_append, List.countP_append, hE id,
      flushCalls_countP_end _ _ hnd,
      flushSpans_countP_zero _ _ _ (fun i => rfl),
      flushCalls_completedFlag]
    cases hf : findCall s.toolCalls id with
    | none => simp [completedFlag, hf]
    | some c =>
      simp only [completedFlag, hf]
      cases hcc : c.completed <;> simp
  · intro id
    rw [List.countP_append, List.countP_append, hC id,
      flushCalls_countP_call _ _ hnd,
      flushSpans_countP_zero _ _ _ (fun i => rfl),
      flushCalls_completedFlag]
    cases hf : findCall s.toolCalls id with
    | none => simp [completedFlag, hf]
    | some c =>
      simp only [completedFlag, hf]
      cases hcc : c.completed <;> simp
  · intro id
    rw [List.countP_append, List.countP_append, hT id,
      flushSpans_countP_end,
      flushCalls_countP_zero _ _ (fun i => rfl) (fun i n a => rfl),
      flushSpans_contains]
    by_cases he : id ∈ s.textEnded
    · simp [he]
    · by_cases hs : id ∈ s.textStarted <;> simp [he, hs]
  · rw [flushCalls_ids]
    exact hnd

theorem atMostOnceInv_processFragment {s : StreamState} {tc : ToolCallFragment}
    {evs : List Event} (h : atMostOnceInv s evs) :
    atMostOnceInv (processFragment s tc).2 (evs ++ (processFragment s tc).1) := by
  obtain ⟨hE, hC, hT, hnd⟩ := h
  refine ⟨?_, ?_, ?_, processFragment_nodup hnd⟩
  · intro id
    rw [List.countP_append,
      processFragment_countP_zero _ _ _ (fun i n => rfl) (fun i d => rfl),
      Nat.add_zero, completedFlag_processFragment]
    exact hE id
  · intro id
    rw [List.countP_append,
      processFragment_countP_zero _ _ _ (fun i n => rfl) (fun i d => rfl),
      Nat.add_zero, completedFlag_processFragment]
    exact hC id
  · intro id
    rw [List.countP_append,
      processFragment_countP_zero _ _ _ (fun i n => rfl) (fun i d => rfl),
      Nat.add_zero, processFragment_textEnded]
    exact hT id

theorem atMostOnceInv_processFragments {tcs : List ToolCallFragment} {s : StreamState}
    {evs : List Event} (h : atMostOnceInv s evs) :
    atMostOnceInv (processFragments s tcs).2 (evs ++ (processFragments s tcs).1) := by
  induction tcs generalizing s evs with
  | nil => simpa [processFragments] using h
  | cons tc rest ih =>
    simp only [processFragments]
    have h2 := ih (@atMostOnceInv_processFragment _ tc _ h)
    simpa [List.append_assoc] using h2

theorem atMostOnceInv_processContent {s : StreamState} {c : String} {evs : List Event}
    (h : atMostOnceInv s evs) :
    atMostOnceInv (processContent s c).2 (evs ++ (processContent s c).1) := by
  obtain ⟨hE, hC, hT, hnd⟩ := h
  refine ⟨?_, ?_, ?_, ?_⟩
  · intro id
    rw [List.countP_append,
      processContent_countP_zero _ _ _ (fun i => rfl) (fun i d => rfl),
      Nat.add_zero]
    have : (processContent s c).2.toolCalls = s.toolCalls := processContent_toolCalls s c
    rw [this]
    exact hE id
  · intro id
    rw [List.countP_append,
      processContent_countP_zero _ _ _ (fun i => rfl) (fun i d => rfl),
      Nat.add_zero]
    rw [processContent_toolCalls]
    exact hC id
  · intro id
    rw [List.countP_append,
      processContent_countP_zero _ _ _ (fun i => rfl) (fun i d => rfl),
      Nat.add_zero]
    rw [processContent_textEnded]
    exact hT id
  · rw [processContent_toolCalls]
    exact hnd

theorem atMostOnceInv_processDelta {s : StreamState} {d : Delta} {evs : List Event}
    (h : atMostOnceInv s evs) :
    atMostOnceInv (processDelta s d).2 (evs ++ (processDelta s d).1) := by
  unfold processDelta
  by_cases hcont : strTruthy d.content
  · rw [if_pos hcont]
    have h1 := atMostOnceInv_processContent (c := d.content.getD "") h
    cases hd : d.tool_calls with
    | none => simpa using h1
    | some tcs =>
      dsimp only
      have h2 := @atMostOnceInv_processFragments tcs _ _ h1
      simpa [List.append_assoc] using h2
  · rw [if_neg hcont]
    cases hd : d.tool_calls with
    | none => simpa using h
    | some tcs =>
      dsimp only
      have h2 := @atMostOnceInv_processFragments tcs _ _ h
      simpa using h2

theorem atMostOnceInv_processFrame {s : StreamState} {f : Frame} {evs : List Event}
    (h : atMostOnceInv s evs) :
    atMostOnceInv (processFrame s f).2 (evs ++ (processFrame s f).1) := by
  unfold processFrame
  have h0 : atMostOnceInv
      (match f.usage with
       | some u => { s with usage := convUsage u }
       | none => s) evs := by
    cases f.usage <;> exact h
  cases hc : f.choices.head? with
  | none =>
    dsimp only
    simpa using h0
  | some choice =>
    dsimp only
    by_cases hfin : strTruthy choice.finish_reason
    · rw [if_pos hfin]
      have h2 := atMostOnceInv_flushAll
        (s := { (match f.usage with
                 | some u => { s with usage := convUsage u }
                 | none => s) with
                finishReason := mapHeliconeFinishReason (choice.finish_reason.getD "") })
        h0
      cases hd : choice.delta with
      | none => simpa using h2
      | some d =>
        dsimp only
        have h3 := atMostOnceInv_processDelta (d := d) h2
        simpa [List.append_assoc] using h3
    · rw [if_neg hfin]
      cases hd : choice.delta with
      | none => simpa using h0
      | some d =>
        dsimp only
        have h3 := atMostOnceInv_processDelta (d := d) h0
        simpa using h3

theorem atMostOnceInv_processLine {s : StreamState} {l : Option Frame} {evs : List Event}
    (h : atMostOnceInv s evs) :
    atMostOnceInv (processLine s l).2 (evs ++ (processLine s l).1) := by
  cases l with
  | none => simpa [processLine] using h
  | some f => exact atMostOnceInv_processFrame h

theorem atMostOnceInv_processLines {lines : List (Option Frame)} {s : StreamState}
    {evs : List Event} (h : atMostOnceInv s evs) :
    atMostOnceInv (processLines s lines).2 (evs ++ (processLines s lines).1) := by
  induction lines generalizing s evs with
  | nil => simpa [processLines] using h
  | cons l rest ih =>
    simp only [processLines]
    have h2 := ih (atMostOnceInv_processLine (l := l) h)
    simpa [List.append_assoc] using h2

/-! ### Claim C3 -/

/-- C3: the finalizer's flush is idempotent per tool-call id and per text
span: in every emitted sequence — in particular when the flush is triggered
more than once for the same id, e.g. by a finish signal followed by stream
exhaustion — `tool-input-end` and `tool-call` appear at most once per id
and `text-end` at most once per span id. -/
theorem spec_C3_flush_idempotent (lines : List (Option Frame)) (id : String) :
    (runStream lines).countP (isToolEndOf id) ≤ 1 ∧
      (runStream lines).countP (isToolCallOf id) ≤ 1 ∧
      (runStream lines).countP (isTextEndOf id) ≤ 1 := by
  have h0 : atMostOnceInv initState [] :=
    ⟨fun id => rfl, fun id => rfl, fun id => rfl, List.nodup_nil⟩
  have h1 := @atMostOnceInv_processLines lines _ _ h0
  rw [List.nil_append] at h1
  have h2 := atMostOnceInv_flushAll h1
  obtain ⟨hE, hC, hT, _⟩ := h2
  have hfinE : ∀ (u : UsageOut) (r : String),
      List.countP (isToolEndOf id) [Event.finish u r] = 0 := fun u r => rfl
  have hfinC : ∀ (u : UsageOut) (r : String),
      List.countP (isToolCallOf id) [Event.finish u r] = 0 := fun u r => rfl
  have hfinT : ∀ (u : UsageOut) (r : String),
      List.countP (isTextEndOf id) [Event.finish u r] = 0 := fun u r => rfl
  unfold runStream
  refine ⟨?_, ?_, ?_⟩
  · simp only [List.countP_append]
    rw [hfinE, Nat.add_zero, ← List.countP_append, hE id]
    split <;> omega
  · simp only [List.countP_append]
    rw [hfinC, Nat.add_zero, ← List.countP_append, hC id]
    split <;> omega
  · simp only [List.countP_append]
    rw [hfinT, Nat.add_zero, ← List.countP_append, hT id]
    split <;> omega

/-! ### Monotonicity of the completed flag -/

theorem completedFlag_flushAll_mono (s : StreamState) (id : String)
    (h : completedFlag s.toolCalls id = true) :
    completedFlag (flushAll s).2.toolCalls id = true := by
  unfold flushAll
  dsimp only
  rw [flushCalls_completedFlag]
  unfold completedFlag at h
  cases hf : findCall s.toolCalls id with
  | none => rw [hf] at h; exact absurd h (by simp)
  | some c => simp [hf]

theorem completedFlag_processFragments (tcs : List ToolCallFragment) (s : StreamState)
    (id : String) :
    completedFlag (processFragments s tcs).2.toolCalls id = completedFlag s.toolCalls id := by
  induction tcs generalizing s with
  | nil => rfl
  | cons tc rest ih =>
    simp only [processFragments]
    rw [ih, completedFlag_processFragment]

theorem completedFlag_processDelta (s : StreamState) (d : Delta) (id : String) :
    completedFlag (processDelta s d).2.toolCalls id = completedFlag s.toolCalls id := by
  unfold processDelta
  cases hd : d.tool_calls with
  | none =>
    dsimp only
    split_ifs <;> simp [processContent_toolCalls]
  | some tcs =>
    dsimp only
    rw [completedFlag_processFragments]
    split_ifs <;> simp [processContent_toolCalls]

theorem completedFlag_processFrame_mono (s : StreamState) (f : Frame) (id : String)
    (h : completedFlag s.toolCalls id = true) :
    completedFlag (processFrame s f).2.toolCalls id = true := by
  unfold processFrame
  have h0 : completedFlag
      (match f.usage with
       | some u => { s with usage := convUsage u }
       | none => s).toolCalls id = true := by
    cases f.usage <;> exact h
  cases hc : f.choices.head? with
  | none => dsimp only; exact h0
  | some choice =>
    dsimp only
    by_cases hfin : strTruthy choice.finish_reason
    · rw [if_pos hfin]
      have h2 := completedFlag_flushAll_mono _ id h0
      cases hd : choice.delta with
      | none => exact h2
      | some d =>
        dsimp only
        rw [completedFlag_processDelta]
        exact h2
    · rw [if_neg hfin]
      cases hd : choice.delta with
      | none => exact h0
      | some d =>
        dsimp only
        rw [completedFlag_processDelta]
        exact h0

theorem completedFlag_processLine_mono (s : StreamState) (l : Option Frame) (id : String)
    (h : completedFlag s.toolCalls id = true) :
    completedFlag (processLine s l).2.toolCalls id = true := by
  cases l with
  | none => exact h
  | some f => exact completedFlag_processFrame_mono s f id h

theorem flushCalls_snd_completed (calls : List ToolCallState) :
    ∀ c ∈ (flushCalls calls).2, c.completed = true := by
  induction calls with
  | nil => intro c hc; simp [flushCalls] at hc
  | cons c rest ih =>
    intro c' hc'
    unfold flushCalls at hc'
    dsimp only at hc'
    by_cases hcc : c.completed
    · rw [if_pos hcc] at hc'
      rcases List.mem_cons.mp hc' with h | h
      · rw [h]; exact hcc
      · exact ih c' h
    · rw [if_neg hcc] at hc'
      rcases List.mem_cons.mp hc' with h | h
      · rw [h]
      · exact ih c' h

/-! ### Claim C8 -/

/-- C8 counterexample: after a first fragment for `c1` and a finish-signal
frame, the tracked call is completed with argument buffer `"x"`; a further
index-only fragment processed afterwards appends to the buffer of the
already-completed call, mutating its state after completion. -/
theorem spec_C8_counterexample :
    findCall (processLines initState
        [some (exToolFrame none [exFrag (some 0) (some "c1") (some "f") (some "x")]),
         some (exToolFrame (some "tool_calls") [])]).2.toolCalls "c1" =
      some { id := "c1", name := "f", arguments := "x", completed := true } ∧
    findCall (processLines initState
        [some (exToolFrame none [exFrag (some 0) (some "c1") (some "f") (some "x")]),
         some (exToolFrame (some "tool_calls") []),
         some (exToolFrame none [exFrag (some 0) none none (some "y")])]).2.toolCalls "c1" =
      some { id := "c1", name := "f", arguments := "xy", completed := true } := by
  decide

/-- C8 (amended): the `completed` flag of a tracked call is monotone — once
true it is never reset by any further processed line —, newly created calls
start with `completed = false`, and the end-of-stream flush completes every
tracked call, so `completed` transitions false→true exactly once per call;
the original claim's "no field mutated after completion" part is refuted by
`spec_C8_counterexample` (name and argument buffer can still change). -/
theorem spec_C8_completed_monotone :
    (∀ (s : StreamState) (l : Option Frame) (id : String) (c : ToolCallState),
       findCall s.toolCalls id = some c → c.completed = true →
       ∃ c', findCall (processLine s l).2.toolCalls id = some c' ∧ c'.completed = true) ∧
    (∀ (s : StreamState) (tc : ToolCallFragment) (id : String) (c : ToolCallState),
       findCall s.toolCalls id = none →
       findCall (processFragment s tc).2.toolCalls id = some c → c.completed = false) ∧
    (∀ (s : StreamState) (c : ToolCallState),
       c ∈ (flushAll s).2.toolCalls → c.completed = true) := by
  refine ⟨?_, ?_, ?_⟩
  · intro s l id c hfind hcomp
    have hflag : completedFlag s.toolCalls id = true := by
      unfold completedFlag
      rw [hfind]
      exact hcomp
    have hafter := completedFlag_processLine_mono s l id hflag
    unfold completedFlag at hafter
    cases hf : findCall (processLine s l).2.toolCalls id with
    | none => rw [hf] at hafter; exact absurd hafter (by simp)
    | some c' =>
      rw [hf] at hafter
      exact ⟨c', rfl, hafter⟩
  · intro s tc id c hnone hsome
    have hflag : completedFlag s.toolCalls id = false := by
      unfold completedFlag
      rw [hnone]
    have hafter : completedFlag (processFragment s tc).2.toolCalls id = false := by
      rw [completedFlag_processFragment]
      exact hflag
    unfold completedFlag at hafter
    rw [hsome] at hafter
    exact hafter
  · intro s c hc
    exact flushCalls_snd_completed s.toolCalls c hc

/-- Witness for C8 (amended) at concrete inputs. -/
theorem spec_C8_completed_monotone_witness :
    (∃ c', findCall (processLine
        { initState with toolCalls := [(⟨"c1", "f", "x", true⟩ : ToolCallState)] }
        (some (exToolFrame none [exFrag (some 0) none none (some "y")]))).2.toolCalls
        "c1" = some c' ∧ c'.completed = true) ∧
    (∀ c : ToolCallState,
       findCall (processFragment initState
         (exFrag (some 0) (some "c1") (some "f") (some "x"))).2.toolCalls "c1" = some c →
       c.completed = false) ∧
    (∀ c : ToolCallState,
       c ∈ (flushAll { initState with
         toolCalls := [(⟨"c1", "f", "x", false⟩ : ToolCallState)] }).2.toolCalls →
       c.completed = true) :=
  ⟨spec_C8_completed_monotone.1 _ _ "c1" ⟨"c1", "f", "x", true⟩ rfl rfl,
    fun c hc => spec_C8_completed_monotone.2.1 initState
      (exFrag (some 0) (some "c1") (some "f") (some "x")) "c1" c rfl hc,
    fun c hc => spec_C8_completed_monotone.2.2 _ c hc⟩

/-! ### Preservation of the start-once invariant -/

theorem tracked3Of_name (s : StreamState) (tc : ToolCallFragment) (toolId : String) :
    (tracked3Of s tc toolId).name = (tracked2Of s tc toolId).name := by
  unfold tracked3Of
  split_ifs <;> rfl

theorem namedFlag_eq_trackedOf (s : StreamState) (toolId : String) :
    namedFlag s.toolCalls toolId = ((trackedOf s toolId).name != "") := by
  unfold namedFlag trackedOf
  cases hf : findCall s.toolCalls toolId with
  | none => simp [freshCall]
  | some c => rfl

theorem namedFlag_flushAll (s : StreamState) (id : String) :
    namedFlag (flushAll s).2.toolCalls id = namedFlag s.toolCalls id := by
  unfold flushAll
  dsimp only
  unfold namedFlag
  rw [flushCalls_snd_findCall]
  cases findCall s.toolCalls id <;> rfl

theorem startOnceInv_processFragment {s : StreamState} {tc : ToolCallFragment}
    {evs : List Event} (h : startOnceInv s evs) :
    startOnceInv (processFragment s tc).2 (evs ++ (processFragment s tc).1) := by
  intro id
  cases hres : resolveToolId s.indexToId tc with
  | none =>
    unfold processFragment
    rw [hres]
    simpa using h id
  | some q =>
    obtain ⟨toolId, idx⟩ := q
    rw [processFragment_resolved hres]
    dsimp only
    rw [List.countP_append]
    by_cases hid : id = toolId
    · subst hid
      have hcount : (fragEvsOf s tc id).countP (isToolStartOf id) =
          if nameHitOf s tc id then 1 else 0 := by
        unfold fragEvsOf
        rw [List.countP_append]
        split_ifs <;> simp [List.countP_cons, isToolStartOf]
      have hafter : namedFlag (updateCall (baseOf s id) id (tracked3Of s tc id)) id =
          ((tracked3Of s tc id).name != "") := by
        unfold namedFlag
        rw [findCall_updateCall_self _ (tracked3Of_id s tc id), findCall_baseOf_self]
        rfl
      rw [hcount, hafter, h id, namedFlag_eq_trackedOf, tracked3Of_name]
      unfold tracked2Of
      by_cases hn : nameHitOf s tc id
      · have hn' := hn
        unfold nameHitOf at hn'
        rw [Bool.and_eq_true] at hn'
        obtain ⟨hf, hb⟩ := hn'
        have h1 : (trackedOf s id).name = "" := by simpa using hb
        have h2 : ((tc.function.bind FunctionFragment.name).getD "") ≠ "" := by
          cases hfn : tc.function.bind FunctionFragment.name with
          | none => rw [hfn] at hf; exact absurd hf (by simp [strTruthy])
          | some x =>
            rw [hfn] at hf
            simpa [strTruthy] using hf
        simp [h1, h2, hn]
      · simp [hn]
    · have hzero : (fragEvsOf s tc toolId).countP (isToolStartOf id) = 0 := by
        unfold fragEvsOf
        rw [List.countP_append]
        have : (toolId == id) = false := by
          simp
          exact fun hh => hid hh.symm
        split_ifs <;> simp [List.countP_cons, isToolStartOf, isToolDeltaOf, this]
      have hflag : namedFlag (updateCall (baseOf s toolId) toolId (tracked3Of s tc toolId)) id =
          namedFlag s.toolCalls id := by
        unfold namedFlag
        rw [findCall_updateCall_ne _ (tracked3Of_id s tc toolId) hid,
          findCall_baseOf_ne s toolId id hid]
      rw [hzero, Nat.add_zero, hflag]
      exact h id

theorem startOnceInv_processFragments {tcs : List ToolCallFragment} {s : StreamState}
    {evs : List Event} (h : startOnceInv s evs) :
    startOnceInv (processFragments s tcs).2 (evs ++ (processFragments s tcs).1) := by
  induction tcs generalizing s evs with
  | nil => simpa [processFragments] using h
  | cons tc rest ih =>
    simp only [processFragments]
    have h2 := ih (@startOnceInv_processFragment _ tc _ h)
    intro id
    have := h2 id
    simpa [List.append_assoc] using this

theorem startOnceInv_processContent {s : StreamState} {c : String} {evs : List Event}
    (h : startOnceInv s evs) :
    startOnceInv (processContent s c).2 (evs ++ (processContent s c).1) := by
  intro id
  rw [List.countP_append,
    processContent_countP_zero _ _ _ (fun i => rfl) (fun i d => rfl),
    Nat.add_zero]
  have : namedFlag (processContent s c).2.toolCalls id = namedFlag s.toolCalls id := by
    rw [processContent_toolCalls]
  rw [this]
  exact h id

theorem startOnceInv_flushAll {s : StreamState} {evs : List Event}
    (h : startOnceInv s evs) :
    startOnceInv (flushAll s).2 (evs ++ (flushAll s).1) := by
  intro id
  rw [List.countP_append]
  have hz : (flushAll s).1.countP (isToolStartOf id) = 0 := by
    unfold flushAll
    dsimp only
    rw [List.countP_append,
      flushCalls_countP_zero _ _ (fun i => rfl) (fun i n a => rfl),
      flushSpans_countP_zero _ _ _ (fun i => rfl)]
  rw [hz, Nat.add_zero, namedFlag_flushAll]
  exact h id

theorem startOnceInv_processDelta {s : StreamState} {d : Delta} {evs : List Event}
    (h : startOnceInv s evs) :
    startOnceInv (processDelta s d).2 (evs ++ (processDelta s d).1) := by
  unfold processDelta
  by_cases hcont : strTruthy d.content
  · rw [if_pos hcont]
    have h1 := startOnceInv_processContent (c := d.content.getD "") h
    cases hd : d.tool_calls with
    | none => simpa using h1
    | some tcs =>
      dsimp only
      have h2 := @startOnceInv_processFragments tcs _ _ h1
      intro id
      simpa [List.append_assoc] using h2 id
  · rw [if_neg hcont]
    cases hd : d.tool_calls with
    | none => simpa using h
    | some tcs =>
      dsimp only
      have h2 := @startOnceInv_processFragments tcs _ _ h
      simpa using h2

theorem startOnceInv_processFrame {s : StreamState} {f : Frame} {evs : List Event}
    (h : startOnceInv s evs) :
    startOnceInv (processFrame s f).2 (evs ++ (processFrame s f).1) := by
  unfold processFrame
  have h0 : startOnceInv
      (match f.usage with
       | some u => { s with usage := convUsage u }
       | none => s) evs := by
    cases f.usage <;> exact h
  cases hc : f.choices.head? with
  | none =>
    dsimp only
    simpa using h0
  | some choice =>
    dsimp only
    by_cases hfin : strTruthy choice.finish_reason
    · rw [if_pos hfin]
      have h2 := startOnceInv_flushAll
        (s := { (match f.usage with
                 | some u => { s with usage := convUsage u }
                 | none => s) with
                finishReason := mapHeliconeFinishReason (choice.finish_reason.getD "") })
        h0
      cases hd : choice.delta with
      | none => simpa using h2
      | some d =>
        dsimp only
        have h3 := startOnceInv_processDelta (d := d) h2
        intro id
        simpa [List.append_assoc] using h3 id
    · rw [if_neg hfin]
      cases hd : choice.delta with
      | none => simpa using h0
      | some d =>
        dsimp only
        have h3 := startOnceInv_processDelta (d := d) h0
        simpa using h3

theorem startOnceInv_processLine {s : StreamState} {l : Option Frame} {evs : List Event}
    (h : startOnceInv s evs) :
    startOnceInv (processLine s l).2 (evs ++ (processLine s l).1) := by
  cases l with
  | none => simpa [processLine] using h
  | some f => exact startOnceInv_processFrame h

theorem startOnceInv_processLines {lines : List (Option Frame)} {s : StreamState}
    {evs : List Event} (h : startOnceInv s evs) :
    startOnceInv (processLines s lines).2 (evs ++ (processLines s lines).1) := by
  induction lines generalizing s evs with
  | nil => simpa [processLines] using h
  | cons l rest ih =>
    simp only [processLines]
    have h2 := ih (startOnceInv_processLine (l := l) h)
    intro id
    simpa [List.append_assoc] using h2 id

/-! ### Extracting the flush pair of an uncompleted call -/

theorem flushCalls_extract {calls : List ToolCallState} {id : String} {c : ToolCallState}
    (hfind : findCall calls id = some c) (hcomp : c.completed = false) :
    ∃ e1 e2, (flushCalls calls).1 =
      e1 ++ Event.toolInputEnd c.id :: Event.toolCall c.id c.name c.arguments :: e2 := by
  induction calls with
  | nil => simp [findCall] at hfind
  | cons h rest ih =>
    by_cases hh : h.id = id
    · rw [findCall_cons_self hh] at hfind
      have : h = c := by injection hfind
      subst this
      unfold flushCalls
      dsimp only
      rw [if_neg (by rw [hcomp]; exact Bool.false_ne_true)]
      exact ⟨[], (flushCalls rest).1, rfl⟩
    · rw [findCall_cons_ne hh] at hfind
      obtain ⟨e1, e2, he⟩ := ih hfind
      unfold flushCalls
      dsimp only
      split_ifs with hc
      · exact ⟨e1, e2, by simpa using he⟩
      · refine ⟨Event.toolInputEnd h.id :: Event.toolCall h.id h.name h.arguments :: e1, e2, ?_⟩
        simp [he]

/-! ### Claim C9 -/

/-- C9: for every stream in which a tool-call id is tracked but never
receives a function name (its tracked name is still empty at end of
stream) and is not flushed mid-stream, no `tool-input-start` is emitted
for that id, yet the finalizer still emits `tool-input-end` immediately
followed by a `tool-call` whose `toolName` is the empty string and whose
`input` is the accumulated argument buffer. -/
theorem spec_C9_unnamed_call (lines : List (Option Frame)) (id : String)
    (c : ToolCallState)
    (hfind : findCall (processLines initState lines).2.toolCalls id = some c)
    (hname : c.name = "") (hcomp : c.completed = false) :
    (runStream lines).countP (isToolStartOf id) = 0 ∧
      ∃ pre post, runStream lines =
        pre ++ Event.toolInputEnd id :: Event.toolCall id "" c.arguments :: post := by
  have hS0 : startOnceInv initState [] := fun i => rfl
  have hS := @startOnceInv_processLines lines _ _ hS0
  have hcid : c.id = id := findCall_id hfind
  constructor
  · unfold runStream
    simp only [List.countP_append]
    have h1 : (processLines initState lines).1.countP (isToolStartOf id) = 0 := by
      have := hS id
      rw [List.nil_append] at this
      rw [this]
      unfold namedFlag
      rw [hfind]
      simp [hname]
    have h2 : (flushAll (processLines initState lines).2).1.countP (isToolStartOf id) = 0 := by
      unfold flushAll
      dsimp only
      rw [List.countP_append,
        flushCalls_countP_zero _ _ (fun i => rfl) (fun i n a => rfl),
        flushSpans_countP_zero _ _ _ (fun i => rfl)]
    have h3 : ∀ (u : UsageOut) (r : String),
        List.countP (isToolStartOf id) [Event.finish u r] = 0 := fun u r => rfl
    rw [h1, h2, h3]
  · obtain ⟨e1, e2, he⟩ := flushCalls_extract hfind hcomp
    rw [hcid, hname] at he
    refine ⟨(processLines initState lines).1 ++ e1,
      e2 ++ (flushSpans (processLines initState lines).2.textEnded
        (processLines initState lines).2.textStarted).1 ++
        [Event.finish (flushAll (processLines initState lines).2).2.usage
          (flushAll (processLines initState lines).2).2.finishReason], ?_⟩
    unfold runStream flushAll
    dsimp only
    rw [he]
    simp [List.append_assoc]

/-- Witness for C9 at a concrete stream whose only fragment carries an id
and arguments but never a name. -/
theorem spec_C9_unnamed_call_witness :
    findCall (processLines initState
        [some (exToolFrame none [exFrag (some 0) (some "c1") none (some "abc")])]).2.toolCalls
        "c1" = some ⟨"c1", "", "abc", false⟩ ∧
      ((runStream [some (exToolFrame none
          [exFrag (some 0) (some "c1") none (some "abc")])]).countP
            (isToolStartOf "c1") = 0 ∧
        ∃ pre post,
          runStream [some (exToolFrame none [exFrag (some 0) (some "c1") none (some "abc")])] =
            pre ++ Event.toolInputEnd "c1" :: Event.toolCall "c1" "" "abc" :: post) :=
  ⟨by decide,
    spec_C9_unnamed_call _ "c1" ⟨"c1", "", "abc", false⟩ (by decide) rfl rfl⟩

/-! ### The argument buffer tracks the emitted delta fragments -/

theorem deltasFor_append (id : String) (a b : List Event) :
    deltasFor id (a ++ b) = deltasFor id a ++ deltasFor id b := by
  unfold deltasFor
  exact List.filterMap_append a b _

theorem applyFrags_concat (l : List String) (d : String) :
    applyFrags (l ++ [d]) = if applyFrags l == "{}" then d else applyFrags l ++ d := by
  unfold applyFrags
  rw [List.foldl_append]
  rfl

theorem deltasFor_eq_nil_of_countP {evs : List Event}
    (h : evs.countP isToolDeltaEv = 0) (id : String) : deltasFor id evs = [] := by
  unfold deltasFor
  rw [List.filterMap_eq_nil_iff]
  intro e he
  have := (List.countP_eq_zero.mp h) e he
  cases e <;> simp_all [isToolDeltaEv]

theorem deltasFor_fragEvsOf_self (s : StreamState) (tc : ToolCallFragment)
    (toolId : String) :
    deltasFor toolId (fragEvsOf s tc toolId) =
      if strTruthy (tc.function.bind FunctionFragment.arguments) then
        [(tc.function.bind FunctionFragment.arguments).getD ""]
      else [] := by
  unfold fragEvsOf deltasFor
  rw [List.filterMap_append]
  split_ifs <;> simp

theorem deltasFor_fragEvsOf_ne (s : StreamState) (tc : ToolCallFragment)
    (toolId id : String) (h : id ≠ toolId) :
    deltasFor id (fragEvsOf s tc toolId) = [] := by
  unfold fragEvsOf deltasFor
  rw [List.filterMap_append]
  have h1 : (toolId == id) = false := by
    simp
    exact fun hh => h hh.symm
  have h2 : ¬ toolId = id := fun hh => h hh.symm
  split_ifs <;> simp [h1, h2]

theorem flushCalls_snd_map (calls : List ToolCallState) :
    (flushCalls calls).2 = calls.map (fun c => { c with completed := true }) := by
  induction calls with
  | nil => rfl
  | cons c rest ih =>
    unfold flushCalls
    dsimp only
    split_ifs with hcc
    · simp only [List.map_cons, List.cons.injEq]
      constructor
      · obtain ⟨i, n, a, comp⟩ := c
        have : comp = true := hcc
        rw [this]
      · exact ih
    · simp [ih]

theorem bufferInv_processFragment {s : StreamState} {tc : ToolCallFragment}
    {evs : List Event} (h : bufferInv s evs) :
    bufferInv (processFragment s tc).2 (evs ++ (processFragment s tc).1) := by
  obtain ⟨h1, h2⟩ := h
  cases hres : resolveToolId s.indexToId tc with
  | none =>
    unfold processFragment
    rw [hres]
    exact ⟨by simpa using h1, by simpa using h2⟩
  | some q =>
    obtain ⟨toolId, idx⟩ := q
    rw [processFragment_resolved hres]
    dsimp only
    have hbase : (trackedOf s toolId).arguments = applyFrags (deltasFor toolId evs) := by
      unfold trackedOf
      cases hf : findCall s.toolCalls toolId with
      | some c =>
        have hmem : c ∈ s.toolCalls := List.mem_of_find?_eq_some hf
        have hc := h1 c hmem
        rw [findCall_id hf] at hc
        simpa using hc
      | none =>
        rw [h2 toolId hf]
        rfl
    constructor
    · intro c' hc'
      unfold updateCall at hc'
      rw [List.mem_map] at hc'
      obtain ⟨c0, hc0mem, hc0eq⟩ := hc'
      by_cases hcid : c0.id = toolId
      · rw [if_pos (by simp [hcid])] at hc0eq
        subst hc0eq
        rw [tracked3Of_id, deltasFor_append, deltasFor_fragEvsOf_self]
        unfold tracked3Of
        split_ifs with hargT hsent
        · rw [applyFrags_concat]
          rw [tracked2Of_arguments, hbase] at hsent
          rw [if_pos hsent]
        · rw [applyFrags_concat]
          rw [tracked2Of_arguments, hbase] at hsent
          rw [if_neg hsent]
          dsimp only
          rw [tracked2Of_arguments, hbase]
        · rw [List.append_nil, tracked2Of_arguments, hbase]
      · rw [if_neg (by simp [hcid])] at hc0eq
        subst hc0eq
        have hc0mem' : c0 ∈ s.toolCalls := by
          unfold baseOf at hc0mem
          by_cases hn : (findCall s.toolCalls toolId).isNone
          · rw [if_pos hn] at hc0mem
            rcases List.mem_append.mp hc0mem with hmm | hmm
            · exact hmm
            · exfalso
              have he : c0 = trackedOf s toolId := List.mem_singleton.mp hmm
              rw [he, trackedOf_id] at hcid
              exact hcid rfl
          · rw [if_neg hn] at hc0mem
            exact hc0mem
        rw [deltasFor_append, deltasFor_fragEvsOf_ne _ _ _ _ hcid, List.append_nil]
        exact h1 c0 hc0mem'
    · intro id hid
      have hidne : id ≠ toolId := by
        intro hEq
        subst hEq
        rw [findCall_updateCall_self _ (tracked3Of_id s tc id), findCall_baseOf_self] at hid
        simp at hid
      rw [findCall_updateCall_ne _ (tracked3Of_id s tc toolId) hidne,
        findCall_baseOf_ne _ _ _ hidne] at hid
      rw [deltasFor_append, deltasFor_fragEvsOf_ne _ _ _ _ hidne, List.append_nil]
      exact h2 id hid

theorem bufferInv_processFragments {tcs : List ToolCallFragment} {s : StreamState}
    {evs : List Event} (h : bufferInv s evs) :
    bufferInv (processFragments s tcs).2 (evs ++ (processFragments s tcs).1) := by
  induction tcs generalizing s evs with
  | nil => simpa [processFragments] using h
  | cons tc rest ih =>
    simp only [processFragments]
    have h2 := ih (@bufferInv_processFragment _ tc _ h)
    simpa [List.append_assoc] using h2

theorem bufferInv_processContent {s : StreamState} {c : String} {evs : List Event}
    (h : bufferInv s evs) :
    bufferInv (processContent s c).2 (evs ++ (processContent s c).1) := by
  obtain ⟨h1, h2⟩ := h
  have hz : (processContent s c).1.countP isToolDeltaEv = 0 :=
    processContent_countP_zero _ _ _ (fun i => rfl) (fun i d => rfl)
  constructor
  · intro c' hc'
    rw [processContent_toolCalls] at hc'
    rw [deltasFor_append, deltasFor_eq_nil_of_countP hz, List.append_nil]
    exact h1 c' hc'
  · intro id hid
    rw [processContent_toolCalls] at hid
    rw [deltasFor_append, deltasFor_eq_nil_of_countP hz, List.append_nil]
    exact h2 id hid

theorem bufferInv_flushAll {s : StreamState} {evs : List Event}
    (h : bufferInv s evs) :
    bufferInv (flushAll s).2 (evs ++ (flushAll s).1) := by
  obtain ⟨h1, h2⟩ := h
  have hz : (flushAll s).1.countP isToolDeltaEv = 0 := by
    unfold flushAll
    dsimp only
    rw [List.countP_append,
      flushCalls_countP_zero _ _ (fun i => rfl) (fun i n a => rfl),
      flushSpans_countP_zero _ _ _ (fun i => rfl)]
  constructor
  · intro c' hc'
    have hc'' : c' ∈ (flushCalls s.toolCalls).2 := hc'
    rw [flushCalls_snd_map, List.mem_map] at hc''
    obtain ⟨c0, hc0, hc0eq⟩ := hc''
    rw [deltasFor_append, deltasFor_eq_nil_of_countP hz, List.append_nil]
    rw [← hc0eq]
    exact h1 c0 hc0
  · intro id hid
    have hid' : findCall (flushCalls s.toolCalls).2 id = none := hid
    rw [flushCalls_snd_findCall] at hid'
    rw [deltasFor_append, deltasFor_eq_nil_of_countP hz, List.append_nil]
    apply h2
    cases hf : findCall s.toolCalls id with
    | none => rfl
    | some c =>
      rw [hf] at hid'
      exact absurd hid' (by simp)

theorem bufferInv_processDelta {s : StreamState} {d : Delta} {evs : List Event}
    (h : bufferInv s evs) :
    bufferInv (processDelta s d).2 (evs ++ (processDelta s d).1) := by
  unfold processDelta
  by_cases hcont : strTruthy d.content
  · rw [if_pos hcont]
    have h1 := bufferInv_processContent (c := d.content.getD "") h
    cases hd : d.tool_calls with
    | none => simpa using h1
    | some tcs =>
      dsimp only
      have h2 := @bufferInv_processFragments tcs _ _ h1
      simpa [List.append_assoc] using h2
  · rw [if_neg hcont]
    cases hd : d.tool_calls with
    | none => simpa using h
    | some tcs =>
      dsimp only
      have h2 := @bufferInv_processFragments tcs _ _ h
      simpa using h2

theorem bufferInv_processFrame {s : StreamState} {f : Frame} {evs : List Event}
    (h : bufferInv s evs) :
    bufferInv (processFrame s f).2 (evs ++ (processFrame s f).1) := by
  unfold processFrame
  have h0 : bufferInv
      (match f.usage with
       | some u => { s with usage := convUsage u }
       | none => s) evs := by
    cases f.usage <;> exact h
  cases hc : f.choices.head? with
  | none =>
    dsimp only
    simpa using h0
  | some choice =>
    dsimp only
    by_cases hfin : strTruthy choice.finish_reason
    · rw [if_pos hfin]
      have h2 := bufferInv_flushAll
        (s := { (match f.usage with
                 | some u => { s with usage := convUsage u }
                 | none => s) with
                finishReason := mapHeliconeFinishReason (choice.finish_reason.getD "") })
        h0
      cases hd : choice.delta with
      | none => simpa using h2
      | some d =>
        dsimp only
        have h3 := bufferInv_processDelta (d := d) h2
        simpa [List.append_assoc] using h3
    · rw [if_neg hfin]
      cases hd : choice.delta with
      | none => simpa using h0
      | some d =>
        dsimp only
        have h3 := bufferInv_processDelta (d := d) h0
        simpa using h3

theorem bufferInv_processLine {s : StreamState} {l : Option Frame} {evs : List Event}
    (h : bufferInv s evs) :
    bufferInv (processLine s l).2 (evs ++ (processLine s l).1) := by
  cases l with
  | none => simpa [processLine] using h
  | some f => exact bufferInv_processFrame h

theorem bufferInv_processLines {lines : List (Option Frame)} {s : StreamState}
    {evs : List Event} (h : bufferInv s evs) :
    bufferInv (processLines s lines).2 (evs ++ (processLines s lines).1) := by
  induction lines generalizing s evs with
  | nil => simpa [processLines] using h
  | cons l rest ih =>
    simp only [processLines]
    have h2 := ih (bufferInv_processLine (l := l) h)
    simpa [List.append_assoc] using h2

theorem bufferInv_run (lines : List (Option Frame)) :
    bufferInv (processLines initState lines).2 (processLines initState lines).1 := by
  have h0 : bufferInv initState [] := ⟨fun c hc => by simp [initState] at hc, fun id hid => rfl⟩
  have h1 := @bufferInv_processLines lines _ _ h0
  rwa [List.nil_append] at h1

/-! ### Claim C10 -/

/-- C10: a tool-call fragment whose arguments field is absent or empty
(non-truthy) produces no `tool-input-delta` event and leaves every tracked
argument buffer unchanged; consequently a tracked call for which no
`tool-input-delta` was ever emitted (all its fragments carried empty or
absent arguments) and that is not flushed mid-stream reports the
empty-object sentinel `"{}"` as its `tool-call` input. -/
theorem spec_C10_empty_arguments :
    (∀ (s : StreamState) (tc : ToolCallFragment),
       strTruthy (tc.function.bind FunctionFragment.arguments) = false →
       (processFragment s tc).1.countP isToolDeltaEv = 0 ∧
         ∀ (id : String) (c : ToolCallState), findCall s.toolCalls id = some c →
           ∃ c', findCall (processFragment s tc).2.toolCalls id = some c' ∧
             c'.arguments = c.arguments) ∧
    (∀ (lines : List (Option Frame)) (id : String) (c : ToolCallState),
       findCall (processLines initState lines).2.toolCalls id = some c →
       c.completed = false →
       deltasFor id (processLines initState lines).1 = [] →
       c.arguments = "{}" ∧
         ∃ pre post, runStream lines =
           pre ++ Event.toolInputEnd id :: Event.toolCall id c.name "{}" :: post) := by
  constructor
  · intro s tc hargs
    cases hres : resolveToolId s.indexToId tc with
    | none =>
      unfold processFragment
      rw [hres]
      exact ⟨rfl, fun id c hfc => ⟨c, hfc, rfl⟩⟩
    | some q =>
      obtain ⟨toolId, idx⟩ := q
      rw [processFragment_resolved hres]
      constructor
      · dsimp only
        unfold fragEvsOf
        rw [List.countP_append]
        split_ifs <;> simp_all [List.countP_cons, isToolDeltaEv]
      · intro id c hfc
        dsimp only
        by_cases hid : id = toolId
        · subst hid
          refine ⟨tracked3Of s tc id, ?_, ?_⟩
          · rw [findCall_updateCall_self _ (tracked3Of_id s tc id), findCall_baseOf_self]
            rfl
          · unfold tracked3Of
            rw [if_neg (by simp [hargs])]
            rw [tracked2Of_arguments]
            unfold trackedOf
            rw [hfc]
            rfl
        · refine ⟨c, ?_, rfl⟩
          rw [findCall_updateCall_ne _ (tracked3Of_id s tc toolId) hid,
            findCall_baseOf_ne _ _ _ hid]
          exact hfc
  · intro lines id c hfind hcomp hds
    have hinv := bufferInv_run lines
    have hmem : c ∈ (processLines initState lines).2.toolCalls :=
      List.mem_of_find?_eq_some hfind
    have hargs : c.arguments = "{}" := by
      have hb := hinv.1 c hmem
      rw [findCall_id hfind, hds] at hb
      simpa [applyFrags] using hb
    refine ⟨hargs, ?_⟩
    obtain ⟨e1, e2, he⟩ := flushCalls_extract hfind hcomp
    rw [findCall_id hfind, hargs] at he
    refine ⟨(processLines initState lines).1 ++ e1,
      e2 ++ (flushSpans (processLines initState lines).2.textEnded
        (processLines initState lines).2.textStarted).1 ++
        [Event.finish (flushAll (processLines initState lines).2).2.usage
          (flushAll (processLines initState lines).2).2.finishReason], ?_⟩
    unfold runStream flushAll
    dsimp only
    rw [he]
    simp [List.append_assoc]

/-- Witness for C10 at a concrete argument-free fragment and stream. -/
theorem spec_C10_empty_arguments_witness :
    ((processFragment { initState with
        toolCalls := [(⟨"c1", "f", "abc", false⟩ : ToolCallState)] }
        (exFrag (some 0) (some "c1") none none)).1.countP isToolDeltaEv = 0 ∧
      (∃ c', findCall (processFragment { initState with
          toolCalls := [(⟨"c1", "f", "abc", false⟩ : ToolCallState)] }
          (exFrag (some 0) (some "c1") none none)).2.toolCalls "c1" = some c' ∧
          c'.arguments = (⟨"c1", "f", "abc", false⟩ : ToolCallState).arguments)) ∧
    ((⟨"c1", "f", "{}", false⟩ : ToolCallState).arguments = "{}" ∧
      ∃ pre post,
        runStream [some (exToolFrame none [exFrag (some 0) (some "c1") (some "f") none])] =
          pre ++ Event.toolInputEnd "c1" :: Event.toolCall "c1" "f" "{}" :: post) :=
  ⟨⟨(spec_C10_empty_arguments.1 _ _ (by decide)).1,
      (spec_C10_empty_arguments.1 _ _ (by decide)).2 "c1" ⟨"c1", "f", "abc", false⟩ rfl⟩,
    spec_C10_empty_arguments.2
      [some (exToolFrame none [exFrag (some 0) (some "c1") (some "f") none])]
      "c1" ⟨"c1", "f", "{}", false⟩ rfl rfl rfl⟩

/-! ### Claim C2 -/

theorem foldl_append_string (l : List String) (acc : String) :
    l.foldl (fun r s => r ++ s) acc = acc ++ String.join l := by
  induction l generalizing acc with
  | nil => simp [String.join]
  | cons d rest ih =>
    rw [List.foldl_cons, ih]
    have hj : String.join (d :: rest) = d ++ String.join rest := by
      show List.foldl (fun r s => r ++ s) "" (d :: rest) = d ++ String.join rest
      rw [List.foldl_cons, ih, String.empty_append]
    rw [hj, String.append_assoc]

theorem join_cons (d : String) (l : List String) :
    String.join (d :: l) = d ++ String.join l := by
  rw [String.join, List.foldl_cons, foldl_append_string, String.empty_append]

theorem foldl_buf (rest : List String) (acc : String)
    (hpre : ∀ k, k < rest.length → acc ++ String.join (rest.take k) ≠ "{}") :
    rest.foldl (fun buf d => if buf == "{}" then d else buf ++ d) acc =
      acc ++ String.join rest := by
  induction rest generalizing acc with
  | nil => simp [String.join]
  | cons d rest' ih =>
    have h0 : acc ≠ "{}" := by
      have := hpre 0 (by simp)
      simpa [String.join] using this
    rw [List.foldl_cons, if_neg (by simpa using h0),
      ih (acc ++ d) ?_, join_cons, String.append_assoc]
    intro k hk
    have := hpre (k + 1) (by simpa using Nat.succ_lt_succ hk)
    rw [List.take_succ_cons, join_cons, ← String.append_assoc] at this
    exact this

theorem applyFrags_eq_join (ds : List String) (hne : ds ≠ [])
    (hpre : ∀ k, 0 < k → k < ds.length → String.join (ds.take k) ≠ "{}") :
    applyFrags ds = String.join ds := by
  cases ds with
  | nil => exact absurd rfl hne
  | cons d rest =>
    unfold applyFrags
    rw [List.foldl_cons, if_pos (by simp), foldl_buf rest d ?_, join_cons]
    intro k hk
    have := hpre (k + 1) (Nat.succ_pos k) (by simpa using Nat.succ_lt_succ hk)
    rw [List.take_succ_cons, join_cons] at this
    exact this

/-- C2 counterexample: for the fragments `"{}"` then `"x"` (first mention
with an id, second index-only), the delivered fragments are `["{}", "x"]`
but the emitted `tool-call` carries input `"x"`, not their concatenation
`"{}x"`: the first fragment was mistaken for the untouched sentinel. -/
theorem spec_C2_counterexample :
    runStream [some (exToolFrame none [exFrag (some 0) (some "c1") (some "f") (some "{}")]),
        some (exToolFrame none [exFrag (some 0) none none (some "x")])] =
      [Event.toolInputStart "c1" "f", Event.toolInputDelta "c1" "{}",
        Event.toolInputDelta "c1" "x", Event.toolInputEnd "c1",
        Event.toolCall "c1" "f" "x",
        Event.finish { inputTokens := 0, outputTokens := 0, totalTokens := 0 } "stop"] ∧
      String.join ["{}", "x"] = "{}x" ∧ ("x" : String) ≠ "{}x" := by
  refine ⟨by decide, by decide, by decide⟩

/-- C2 (amended): for a call that is not flushed mid-stream, the emitted
`tool-call` input equals the concatenation, in arrival order, of the
argument fragments delivered for that id, provided at least one fragment
is delivered and no proper prefix of the fragments concatenates to exactly
the sentinel `"{}"` (otherwise the buffer is mistaken for the untouched
sentinel and overwritten, as in `spec_C2_counterexample`). -/
theorem spec_C2_input_concatenation (lines : List (Option Frame)) (id : String)
    (c : ToolCallState)
    (hfind : findCall (processLines initState lines).2.toolCalls id = some c)
    (hcomp : c.completed = false)
    (hne : deltasFor id (processLines initState lines).1 ≠ [])
    (hpre : ∀ k, 0 < k →
      k < (deltasFor id (processLines initState lines).1).length →
      String.join ((deltasFor id (processLines initState lines).1).take k) ≠ "{}") :
    ∃ pre post, runStream lines =
      pre ++ Event.toolInputEnd id ::
        Event.toolCall id c.name
          (String.join (deltasFor id (processLines initState lines).1)) :: post := by
  have hinv := bufferInv_run lines
  have hmem : c ∈ (processLines initState lines).2.toolCalls :=
    List.mem_of_find?_eq_some hfind
  have hargs : c.arguments =
      String.join (deltasFor id (processLines initState lines).1) := by
    have hb := hinv.1 c hmem
    rw [findCall_id hfind] at hb
    rw [hb, applyFrags_eq_join _ hne hpre]
  obtain ⟨e1, e2, he⟩ := flushCalls_extract hfind hcomp
  rw [findCall_id hfind, hargs] at he
  refine ⟨(processLines initState lines).1 ++ e1,
    e2 ++ (flushSpans (processLines initState lines).2.textEnded
      (processLines initState lines).2.textStarted).1 ++
      [Event.finish (flushAll (processLines initState lines).2).2.usage
        (flushAll (processLines initState lines).2).2.finishReason], ?_⟩
  unfold runStream flushAll
  dsimp only
  rw [he]
  simp [List.append_assoc]

/-- Witness for C2 (amended) at a concrete two-fragment stream: fragments
`"ab"` then `"cd"` yield input `"abcd"`. -/
theorem spec_C2_input_concatenation_witness :
    findCall (processLines initState
        [some (exToolFrame none [exFrag (some 0) (some "c1") (some "f") (some "ab")]),
         some (exToolFrame none [exFrag (some 0) none none (some "cd")])]).2.toolCalls
        "c1" = some ⟨"c1", "f", "abcd", false⟩ ∧
      deltasFor "c1" (processLines initState
        [some (exToolFrame none [exFrag (some 0) (some "c1") (some "f") (some "ab")]),
         some (exToolFrame none [exFrag (some 0) none none (some "cd")])]).1 =
        ["ab", "cd"] ∧
      ∃ pre post,
        runStream [some (exToolFrame none [exFrag (some 0) (some "c1") (some "f") (some "ab")]),
            some (exToolFrame none [exFrag (some 0) none none (some "cd")])] =
          pre ++ Event.toolInputEnd "c1" ::
            Event.toolCall "c1" "f"
              (String.join (deltasFor "c1" (processLines initState
                [some (exToolFrame none [exFrag (some 0) (some "c1") (some "f") (some "ab")]),
                 some (exToolFrame none [exFrag (some 0) none none (some "cd")])]).1)) :: post :=
  ⟨by decide, by decide,
    spec_C2_input_concatenation _ "c1" ⟨"c1", "f", "abcd", false⟩ (by decide) rfl
      (by decide)
      (by
        have hds : deltasFor "c1" (processLines initState
            [some (exToolFrame none [exFrag (some 0) (some "c1") (some "f") (some "ab")]),
             some (exToolFrame none [exFrag (some 0) none none (some "cd")])]).1 =
            ["ab", "cd"] := by decide
        intro k hk0 hklen
        rw [hds] at hklen ⊢
        have hk1 : k = 1 := by
          simp at hklen
          omega
        subst hk1
        decide)⟩

/-! ### Filter and tail utilities for the ordering invariant -/

theorem filter_toolEv_fragEvsOf_self (s : StreamState) (tc : ToolCallFragment)
    (toolId : String) :
    (fragEvsOf s tc toolId).filter (isToolEvOf toolId) = fragEvsOf s tc toolId := by
  unfold fragEvsOf
  rw [List.filter_append]
  split_ifs <;> simp [isToolEvOf]

theorem filter_toolEv_fragEvsOf_ne (s : StreamState) (tc : ToolCallFragment)
    (toolId id : String) (h : id ≠ toolId) :
    (fragEvsOf s tc toolId).filter (isToolEvOf id) = [] := by
  unfold fragEvsOf
  rw [List.filter_append]
  have hne : (toolId == id) = false := by
    simp
    exact fun hh => h hh.symm
  split_ifs <;> simp [isToolEvOf, hne]

theorem filter_textEv_fragEvsOf (s : StreamState) (tc : ToolCallFragment)
    (toolId id : String) :
    (fragEvsOf s tc toolId).filter (isTextEvOf id) = [] := by
  unfold fragEvsOf
  rw [List.filter_append]
  split_ifs <;> simp [isTextEvOf]

theorem countP_finish_fragEvsOf (s : StreamState) (tc : ToolCallFragment)
    (toolId : String) :
    (fragEvsOf s tc toolId).countP isFinishEv = 0 := by
  unfold fragEvsOf
  rw [List.countP_append]
  split_ifs <;> simp [List.countP_cons, isFinishEv]

theorem toolTail_append_deltas (id : String) (ds : List Event)
    (h : ∀ e ∈ ds, isToolDeltaOf id e = true) (n a : String) :
    toolTail id (ds ++ [Event.toolInputEnd id, Event.toolCall id n a]) = true := by
  induction ds with
  | nil => simp [toolTail]
  | cons e rest ih =>
    have he := h e (List.mem_cons_self e rest)
    cases e <;> simp [isToolDeltaOf] at he
    rename_i i d
    rw [List.cons_append]
    have ht := ih (fun e' he' => h e' (List.mem_cons_of_mem _ he'))
    simp [toolTail, he, ht]

theorem textTail_append_deltas (id : String) (ds : List Event)
    (h : ∀ e ∈ ds, isTextDeltaOf id e = true) :
    textTail id (ds ++ [Event.textEnd id]) = true := by
  induction ds with
  | nil => simp [textTail]
  | cons e rest ih =>
    have he := h e (List.mem_cons_self e rest)
    cases e <;> simp [isTextDeltaOf] at he
    rename_i i d
    rw [List.cons_append]
    have ht := ih (fun e' he' => h e' (List.mem_cons_of_mem _ he'))
    simp [textTail, he, ht]

theorem findCall_of_mem_nodup {calls : List ToolCallState} {c : ToolCallState}
    (hnd : (calls.map (fun c => c.id)).Nodup) (hmem : c ∈ calls) :
    findCall calls c.id = some c := by
  induction calls with
  | nil => simp at hmem
  | cons h rest ih =>
    rw [List.map_cons, List.nodup_cons] at hnd
    obtain ⟨hnotin, hndr⟩ := hnd
    rcases List.mem_cons.mp hmem with he | he
    · subst he
      exact findCall_cons_self rfl
    · have hne : h.id ≠ c.id := by
        intro hh
        exact hnotin (hh ▸ List.mem_map_of_mem (fun c => c.id) he)
      rw [findCall_cons_ne hne]
      exact ih hndr he

theorem flushCalls_filter_absent (calls : List ToolCallState) (id : String)
    (hfind : findCall calls id = none) :
    (flushCalls calls).1.filter (isToolEvOf id) = [] := by
  induction calls with
  | nil => rfl
  | cons c rest ih =>
    have hne : c.id ≠ id := by
      intro hh
      rw [findCall_cons_self hh] at hfind
      exact Option.noConfusion hfind
    rw [findCall_cons_ne hne] at hfind
    unfold flushCalls
    dsimp only
    rw [List.filter_append]
    have hh : (c.id == id) = false := by simp [hne]
    split_ifs <;> simp [isToolEvOf, hh, ih hfind]

theorem flushCalls_filter_self (calls : List ToolCallState) {id : String}
    {c : ToolCallState} (hnd : (calls.map (fun c => c.id)).Nodup)
    (hfind : findCall calls id = some c) :
    (flushCalls calls).1.filter (isToolEvOf id) =
      if c.completed then []
      else [Event.toolInputEnd id, Event.toolCall id c.name c.arguments] := by
  induction calls with
  | nil => simp [findCall] at hfind
  | cons h rest ih =>
    rw [List.map_cons, List.nodup_cons] at hnd
    obtain ⟨hnotin, hndr⟩ := hnd
    unfold flushCalls
    dsimp only
    rw [List.filter_append]
    by_cases hh : h.id = id
    · rw [findCall_cons_self hh] at hfind
      have hhc : h = c := by injection hfind
      subst hhc
      have hrest : findCall rest id = none := by
        rw [findCall_eq_none]
        rw [hh] at hnotin
        exact hnotin
      rw [flushCalls_filter_absent rest id hrest, List.append_nil]
      split_ifs with hcc
      · rfl
      · simp [isToolEvOf, hh]
    · rw [findCall_cons_ne hh] at hfind
      have hne : (h.id == id) = false := by simp [hh]
      rw [ih hndr hfind]
      split_ifs <;> simp [isToolEvOf, hne]

theorem flushCalls_filter_textEv (calls : List ToolCallState) (id : String) :
    (flushCalls calls).1.filter (isTextEvOf id) = [] := by
  induction calls with
  | nil => rfl
  | cons c rest ih =>
    unfold flushCalls
    dsimp only
    rw [List.filter_append]
    split_ifs <;> simp [isTextEvOf, ih]

theorem flushCalls_countP_finish (calls : List ToolCallState) :
    (flushCalls calls).1.countP isFinishEv = 0 := by
  induction calls with
  | nil => rfl
  | cons c rest ih =>
    unfold flushCalls
    dsimp only
    rw [List.countP_append]
    split_ifs <;> simp [List.countP_cons, isFinishEv, ih]

theorem flushCalls_all_completed_nil (calls : List ToolCallState)
    (h : ∀ c ∈ calls, c.completed = true) :
    (flushCalls calls).1 = [] := by
  induction calls with
  | nil => rfl
  | cons c rest ih =>
    unfold flushCalls
    dsimp only
    rw [if_pos (h c (List.mem_cons_self c rest)),
      ih (fun c' hc' => h c' (List.mem_cons_of_mem _ hc'))]
    rfl

theorem contains_true_iff (l : List String) (a : String) :
    l.contains a = true ↔ a ∈ l := by
  simp

theorem flushSpans_subset_nil (started ended : List String)
    (h : ∀ i ∈ started, i ∈ ended) :
    (flushSpans ended started).1 = [] := by
  induction started generalizing ended with
  | nil => rfl
  | cons a rest ih =>
    unfold flushSpans
    rw [if_pos ((contains_true_iff ended a).mpr (h a (List.mem_cons_self a rest)))]
    exact ih ended (fun i hi => h i (List.mem_cons_of_mem _ hi))

theorem flushSpans_filter_toolEv (started ended : List String) (id : String) :
    (flushSpans ended started).1.filter (isToolEvOf id) = [] := by
  induction started generalizing ended with
  | nil => rfl
  | cons a rest ih =>
    unfold flushSpans
    split_ifs <;> simp [isToolEvOf, ih]

theorem flushSpans_countP_finish (started ended : List String) :
    (flushSpans ended started).1.countP isFinishEv = 0 := by
  induction started generalizing ended with
  | nil => rfl
  | cons a rest ih =>
    unfold flushSpans
    split_ifs <;> simp [List.countP_cons, isFinishEv, ih]

theorem lookup_mem {m : List (Nat × String)} {n : Nat} {j : String}
    (h : m.lookup n = some j) : (n, j) ∈ m := by
  induction m with
  | nil => simp [List.lookup] at h
  | cons p rest ih =>
    rw [List.lookup] at h
    by_cases hp : (n == p.1) = true
    · rw [hp] at h
      have hj : p.2 = j := by injection h
      have hn : n = p.1 := by simpa using hp
      have hpe : (n, j) = p := by
        rw [hn, ← hj]
      rw [hpe]
      exact List.mem_cons_self p rest
    · rw [Bool.not_eq_true] at hp
      rw [hp] at h
      exact List.mem_cons_of_mem _ (ih h)

theorem mem_setIdx {m : List (Nat × String)} {n : Nat} {i : String}
    {p : Nat × String} (h : p ∈ setIdx m n i) : p.2 = i ∨ p ∈ m := by
  unfold setIdx at h
  split_ifs at h
  · rw [List.mem_map] at h
    obtain ⟨q, hq, he⟩ := h
    by_cases hqn : q.1 == n
    · rw [if_pos hqn] at he
      left
      rw [← he]
    · rw [if_neg hqn] at he
      right
      rw [← he]
      exact hq
  · rcases List.mem_append.mp h with hm | hm
    · right; exact hm
    · left
      have : p = (n, i) := List.mem_singleton.mp hm
      rw [this]

theorem resolveToolId_cases {m : List (Nat × String)} {tc : ToolCallFragment}
    {toolId : String} {idx : List (Nat × String)}
    (h : resolveToolId m tc = some (toolId, idx)) :
    (strTruthy tc.id = true ∧ (idx = m ∨ ∃ n, idx = setIdx m n toolId)) ∨
      (strTruthy tc.id = false ∧ idx = m ∧ ∃ n, m.lookup n = some toolId) := by
  unfold resolveToolId at h
  by_cases hid : strTruthy tc.id
  · left
    refine ⟨hid, ?_⟩
    rw [if_pos hid] at h
    cases hix : tc.index with
    | some n =>
      rw [hix] at h
      dsimp only at h
      right
      refine ⟨n, ?_⟩
      have h1 : tc.id.getD "" = toolId := by
        have := congrArg (fun o => Option.map Prod.fst o) h
        simpa using this
      have h2 : setIdx m n (tc.id.getD "") = idx := by
        have := congrArg (fun o => Option.map Prod.snd o) h
        simpa using this
      rw [← h2, h1]
    | none =>
      rw [hix] at h
      dsimp only at h
      left
      have h2 : m = idx := by
        have := congrArg (fun o => Option.map Prod.snd o) h
        simpa using this
      rw [h2]
  · right
    rw [if_neg hid] at h
    cases hix : tc.index with
    | none =>
      rw [hix] at h
      exact Option.noConfusion h
    | some n =>
      rw [hix] at h
      dsimp only at h
      cases hlook : m.lookup n with
      | none =>
        rw [hlook] at h
        exact Option.noConfusion h
      | some j =>
        rw [hlook] at h
        have hj : j = toolId := by
          have := congrArg (fun o => Option.map Prod.fst o) h
          simpa using this
        have hm : m = idx := by
          have := congrArg (fun o => Option.map Prod.snd o) h
          simpa using this
        exact ⟨by simpa using hid, hm.symm, ⟨n, by rw [hlook, hj]⟩⟩

theorem processDelta_noPayload (s : StreamState) (d : Delta)
    (hc : strTruthy d.content = false)
    (ht : (d.tool_calls.getD []).isEmpty = true) :
    processDelta s d = ([], s) := by
  unfold processDelta
  rw [if_neg (by simp [hc])]
  cases hd : d.tool_calls with
  | none => rfl
  | some tcs =>
    rw [hd] at ht
    have : tcs = [] := by
      cases tcs with
      | nil => rfl
      | cons a b => simp [List.isEmpty] at ht
    rw [this]
    rfl

/-! ### Preservation of the open invariant -/

theorem openInv_processContent {s : StreamState} {c : String} {evs : List Event}
    (h : openInv s evs) :
    openInv (processContent s c).2 (evs ++ (processContent s c).1) := by
  obtain ⟨hT, hA, hX, hXo, hF, hnd, hidx⟩ := h
  unfold processContent
  have htool : ∀ (id : String) (l : List Event),
      (∀ e ∈ l, isToolEvOf id e = false) → l.filter (isToolEvOf id) = [] := by
    intro id l hl
    rw [List.filter_eq_nil_iff]
    intro e he
    simp [hl e he]
  rcases hX with ⟨hs0, he0, hf0⟩ | ⟨hs0, he0, ⟨ds, hf0, hds⟩⟩
  · rw [hs0, if_neg (by simp)]
    dsimp only
    refine ⟨?_, ?_, ?_, ?_, ?_, ?_, ?_⟩
    · intro c' hc'
      obtain ⟨h1, h2, nm, ds', h3, h4⟩ := hT c' hc'
      refine ⟨h1, h2, nm, ds', ?_, h4⟩
      rw [List.filter_append, h3]
      simp [isToolEvOf]
    · intro id hid
      rw [List.filter_append, hA id hid]
      simp [isToolEvOf]
    · right
      refine ⟨by simp, he0, [Event.textDelta "text-0" c], ?_, ?_⟩
      · rw [List.filter_append, hf0]
        simp [isTextEvOf]
      · intro e he
        have : e = Event.textDelta "text-0" c := List.mem_singleton.mp he
        rw [this]
        simp [isTextDeltaOf]
    · intro id hid
      rw [List.filter_append, hXo id hid]
      have : ("text-0" == id) = false := by
        simp
        exact fun hh => hid hh.symm
      simp [isTextEvOf, this]
    · rw [List.countP_append, hF]
      simp [List.countP_cons, isFinishEv]
    · exact hnd
    · exact hidx
  · rw [hs0, if_pos (by simp)]
    dsimp only
    refine ⟨?_, ?_, ?_, ?_, ?_, ?_, ?_⟩
    · intro c' hc'
      obtain ⟨h1, h2, nm, ds', h3, h4⟩ := hT c' hc'
      refine ⟨h1, h2, nm, ds', ?_, h4⟩
      rw [List.filter_append, h3]
      simp [isToolEvOf]
    · intro id hid
      rw [List.filter_append, hA id hid]
      simp [isToolEvOf]
    · right
      refine ⟨hs0, he0, ds ++ [Event.textDelta "text-0" c], ?_, ?_⟩
      · rw [List.filter_append, hf0]
        simp [isTextEvOf]
      · intro e he
        rcases List.mem_append.mp he with hm | hm
        · exact hds e hm
        · have : e = Event.textDelta "text-0" c := List.mem_singleton.mp hm
          rw [this]
          simp [isTextDeltaOf]
    · intro id hid
      rw [List.filter_append, hXo id hid]
      have : ("text-0" == id) = false := by
        simp
        exact fun hh => hid hh.symm
      simp [isTextEvOf, this]
    · rw [List.countP_append, hF]
      simp [List.countP_cons, isFinishEv]
    · exact hnd
    · exact hidx

theorem mem_baseOf_ne {s : StreamState} {toolId : String} {c : ToolCallState}
    (hmem : c ∈ baseOf s toolId) (hne : c.id ≠ toolId) : c ∈ s.toolCalls := by
  unfold baseOf at hmem
  by_cases hn : (findCall s.toolCalls toolId).isNone
  · rw [if_pos hn] at hmem
    rcases List.mem_append.mp hmem with hm | hm
    · exact hm
    · exfalso
      have he : c = trackedOf s toolId := List.mem_singleton.mp hm
      rw [he, trackedOf_id] at hne
      exact hne rfl
  · rw [if_neg hn] at hmem
    exact hmem

theorem openInv_processFragment {s : StreamState} {tc : ToolCallFragment}
    {evs : List Event} (hfragOK : fragOK tc = true) (h : openInv s evs) :
    openInv (processFragment s tc).2 (evs ++ (processFragment s tc).1) := by
  obtain ⟨hT, hA, hX, hXo, hF, hnd, hidx⟩ := h
  cases hres : resolveToolId s.indexToId tc with
  | none =>
    unfold processFragment
    rw [hres]
    rw [List.append_nil]
    exact ⟨hT, hA, hX, hXo, hF, hnd, hidx⟩
  | some q =>
    obtain ⟨toolId, idx⟩ := q
    have hnd' : ((processFragment s tc).2.toolCalls.map (fun c => c.id)).Nodup :=
      processFragment_nodup hnd
    rw [processFragment_resolved hres] at hnd'
    rw [processFragment_resolved hres]
    dsimp only at hnd' ⊢
    have hself : ∀ q, (q = toolId ∨ (findCall s.toolCalls q).isSome = true) →
        (findCall (updateCall (baseOf s toolId) toolId (tracked3Of s tc toolId)) q).isSome
          = true := by
      intro q hq
      by_cases hqt : q = toolId
      · subst hqt
        rw [findCall_updateCall_self _ (tracked3Of_id s tc q), findCall_baseOf_self]
        rfl
      · rcases hq with hq | hq
        · exact absurd hq hqt
        · rw [findCall_updateCall_ne _ (tracked3Of_id s tc toolId) hqt,
            findCall_baseOf_ne _ _ _ hqt]
          exact hq
    have hcomp3 : (tracked3Of s tc toolId).completed = false := by
      rw [tracked3Of_completed]
      unfold trackedOf
      cases hex : findCall s.toolCalls toolId with
      | none => rfl
      | some c0 =>
        have := (hT c0 (List.mem_of_find?_eq_some hex)).1
        simpa using this
    have hstart3 : (tracked3Of s tc toolId).name ≠ "" ∧
        ∃ nm ds', (evs ++ fragEvsOf s tc toolId).filter (isToolEvOf toolId) =
          Event.toolInputStart toolId nm :: ds' ∧
            ∀ e ∈ ds', isToolDeltaOf toolId e = true := by
      rw [List.filter_append, filter_toolEv_fragEvsOf_self]
      cases hex : findCall s.toolCalls toolId with
      | some c0 =>
        have hmem0 := List.mem_of_find?_eq_some hex
        obtain ⟨hc1, hc2, nm, ds, hfil, hdel⟩ := hT c0 hmem0
        have hc0id := findCall_id hex
        have htr : trackedOf s toolId = c0 := by
          unfold trackedOf
          rw [hex]
          rfl
        have hnh : nameHitOf s tc toolId = false := by
          unfold nameHitOf
          rw [htr]
          have : (c0.name == "") = false := by simp [hc2]
          simp [this]
        rw [hc0id] at hfil hdel
        constructor
        · rw [tracked3Of_name]
          unfold tracked2Of
          rw [hnh]
          dsimp only
          rw [htr]
          exact hc2
        · refine ⟨nm, ds ++ (if strTruthy (tc.function.bind FunctionFragment.arguments)
              then [Event.toolInputDelta toolId
                ((tc.function.bind FunctionFragment.arguments).getD "")] else []),
            ?_, ?_⟩
          · rw [hfil]
            unfold fragEvsOf
            rw [hnh]
            simp
          · intro e he
            rcases List.mem_append.mp he with hm | hm
            · exact hdel e hm
            · by_cases hag : strTruthy (tc.function.bind FunctionFragment.arguments)
              · rw [if_pos hag] at hm
                have he2 := List.mem_singleton.mp hm
                rw [he2]
                simp [isToolDeltaOf]
              · rw [if_neg hag] at hm
                simp at hm
      | none =>
        have htruthy : strTruthy tc.id = true := by
          rcases resolveToolId_cases hres with ⟨ht, _⟩ | ⟨ht, hidxm, n, hlook⟩
          · exact ht
          · exfalso
            have hmemm := lookup_mem hlook
            have hsome := hidx _ hmemm
            dsimp only at hsome
            rw [hex] at hsome
            exact absurd hsome (by simp)
        have hfname : strTruthy (tc.function.bind FunctionFragment.name) = true := by
          unfold fragOK at hfragOK
          rw [htruthy] at hfragOK
          simpa using hfragOK
        have htr : trackedOf s toolId = freshCall toolId := by
          unfold trackedOf
          rw [hex]
          rfl
        have hnh : nameHitOf s tc toolId = true := by
          unfold nameHitOf
          rw [htr, hfname]
          simp [freshCall]
        have hgetne : ((tc.function.bind FunctionFragment.name).getD "") ≠ "" := by
          cases hfn : tc.function.bind FunctionFragment.name with
          | none =>
            rw [hfn] at hfname
            exact absurd hfname (by simp [strTruthy])
          | some x =>
            rw [hfn] at hfname
            simpa [strTruthy] using hfname
        constructor
        · rw [tracked3Of_name]
          unfold tracked2Of
          rw [hnh]
          dsimp only
          exact hgetne
        · rw [hA toolId hex]
          refine ⟨(tc.function.bind FunctionFragment.name).getD "",
            (if strTruthy (tc.function.bind FunctionFragment.arguments)
              then [Event.toolInputDelta toolId
                ((tc.function.bind FunctionFragment.arguments).getD "")] else []),
            ?_, ?_⟩
          · unfold fragEvsOf
            rw [hnh]
            simp
          · intro e he
            by_cases hag : strTruthy (tc.function.bind FunctionFragment.arguments)
            · rw [if_pos hag] at he
              have he2 := List.mem_singleton.mp he
              rw [he2]
              simp [isToolDeltaOf]
            · rw [if_neg hag] at he
              simp at he
    refine ⟨?_, ?_, ?_, ?_, ?_, hnd', ?_⟩
    · intro c' hc'
      unfold updateCall at hc'
      rw [List.mem_map] at hc'
      obtain ⟨c0', hc0'mem, hc0'eq⟩ := hc'
      by_cases hcid : c0'.id = toolId
      · rw [if_pos (by simp [hcid])] at hc0'eq
        subst hc0'eq
        refine ⟨hcomp3, hstart3.1, ?_⟩
        rw [tracked3Of_id]
        exact hstart3.2
      · rw [if_neg (by simp [hcid])] at hc0'eq
        subst hc0'eq
        have hmem' : c0' ∈ s.toolCalls := mem_baseOf_ne hc0'mem hcid
        obtain ⟨h1, h2, nm, ds', h3, h4⟩ := hT c0' hmem'
        refine ⟨h1, h2, nm, ds', ?_, h4⟩
        rw [List.filter_append, filter_toolEv_fragEvsOf_ne _ _ _ _ hcid, List.append_nil]
        exact h3
    · intro id hid
      have hidne : id ≠ toolId := by
        intro hEq
        subst hEq
        rw [findCall_updateCall_self _ (tracked3Of_id s tc id), findCall_baseOf_self] at hid
        simp at hid
      rw [findCall_updateCall_ne _ (tracked3Of_id s tc toolId) hidne,
        findCall_baseOf_ne _ _ _ hidne] at hid
      rw [List.filter_append, filter_toolEv_fragEvsOf_ne _ _ _ _ hidne, List.append_nil]
      exact hA id hid
    · rcases hX with ⟨a, b, c'⟩ | ⟨a, b, ds0, c', d0⟩
      · left
        refine ⟨a, b, ?_⟩
        rw [List.filter_append, filter_textEv_fragEvsOf, List.append_nil]
        exact c'
      · right
        refine ⟨a, b, ds0, ?_, d0⟩
        rw [List.filter_append, filter_textEv_fragEvsOf, List.append_nil]
        exact c'
    · intro id hid
      rw [List.filter_append, filter_textEv_fragEvsOf, List.append_nil]
      exact hXo id hid
    · rw [List.countP_append, countP_finish_fragEvsOf, hF]
    · intro p hp
      rcases resolveToolId_cases hres with ⟨_, hcase⟩ | ⟨_, hidxm, _⟩
      · rcases hcase with he | ⟨n, he⟩
        · rw [he] at hp
          exact hself p.2 (Or.inr (hidx p hp))
        · rw [he] at hp
          rcases mem_setIdx hp with h2 | h2
          · exact hself p.2 (Or.inl h2)
          · exact hself p.2 (Or.inr (hidx p h2))
      · rw [hidxm] at hp
        exact hself p.2 (Or.inr (hidx p hp))

theorem openInv_processFragments {tcs : List ToolCallFragment} {s : StreamState}
    {evs : List Event} (hfr : tcs.all fragOK = true) (h : openInv s evs) :
    openInv (processFragments s tcs).2 (evs ++ (processFragments s tcs).1) := by
  induction tcs generalizing s evs with
  | nil => simpa [processFragments] using h
  | cons tc rest ih =>
    rw [List.all_cons, Bool.and_eq_true] at hfr
    simp only [processFragments]
    have h2 := ih hfr.2 (openInv_processFragment hfr.1 h)
    simpa [List.append_assoc] using h2

theorem closedInv_of_openInv_flushAll {s : StreamState} {evs : List Event}
    (h : openInv s evs) :
    closedInv (flushAll s).2 (evs ++ (flushAll s).1) := by
  obtain ⟨hT, hA, hX, hXo, hF, hnd, hidx⟩ := h
  unfold flushAll
  dsimp only
  have htoolpart : ∀ c' ∈ (flushCalls s.toolCalls).2, c'.completed = true ∧
      ∀ extra : List Event, (∀ id, extra.filter (isToolEvOf id) = []) →
        toolSeqOK c'.id (evs ++ ((flushCalls s.toolCalls).1 ++ extra)) = true := by
    intro c' hc'
    rw [flushCalls_snd_map, List.mem_map] at hc'
    obtain ⟨c0, hc0, he⟩ := hc'
    subst he
    refine ⟨rfl, ?_⟩
    intro extra hextra
    obtain ⟨hcf, hcn, nm, ds0, hfil, hdel⟩ := hT c0 hc0
    unfold toolSeqOK
    have hflushfil := flushCalls_filter_self s.toolCalls hnd (findCall_of_mem_nodup hnd hc0)
    rw [hcf] at hflushfil
    simp only [Bool.false_eq_true, if_false] at hflushfil
    rw [List.filter_append, List.filter_append, hfil, hflushfil, hextra, List.append_nil]
    rw [List.cons_append]
    simp only [beq_self_eq_true, Bool.true_and]
    exact toolTail_append_deltas c0.id ds0 hdel c0.name c0.arguments
  have habsent : ∀ id, findCall (flushCalls s.toolCalls).2 id = none →
      ∀ extra : List Event, (∀ i, extra.filter (isToolEvOf i) = []) →
        (evs ++ ((flushCalls s.toolCalls).1 ++ extra)).filter (isToolEvOf id) = [] := by
    intro id hid extra hextra
    rw [flushCalls_snd_findCall] at hid
    have hid' : findCall s.toolCalls id = none := by
      cases hf : findCall s.toolCalls id with
      | none => rfl
      | some c =>
        rw [hf] at hid
        exact absurd hid (by simp)
    rw [List.filter_append, List.filter_append, hA id hid',
      flushCalls_filter_absent _ _ hid', hextra]
    rfl
  rcases hX with ⟨hs0, he0, hf0⟩ | ⟨hs0, he0, ds, hf0, hds⟩
  · rw [hs0, he0]
    have hsp : flushSpans ([] : List String) ([] : List String) = ([], []) := rfl
    rw [hsp]
    dsimp only
    refine ⟨?_, ?_, ?_, ?_, ?_, ?_⟩
    · intro c' hc'
      obtain ⟨h1, h2⟩ := htoolpart c' hc'
      exact ⟨h1, by simpa using h2 [] (fun i => rfl)⟩
    · intro id hid
      simpa using habsent id hid [] (fun i => rfl)
    · left
      rw [List.filter_append, List.filter_append, hf0, flushCalls_filter_textEv]
      rfl
    · intro id hid
      rw [List.filter_append, List.filter_append, hXo id hid, flushCalls_filter_textEv]
      rfl
    · rw [List.countP_append, hF, List.countP_append, flushCalls_countP_finish]
      rfl
    · intro i hi
      simp at hi
  · rw [hs0, he0]
    have hsp : flushSpans ([] : List String) ["text-0"] =
        ([Event.textEnd "text-0"], ["text-0"]) := rfl
    rw [hsp]
    dsimp only
    have hextra1 : ∀ i, ([Event.textEnd "text-0"] : List Event).filter (isToolEvOf i) = [] :=
      fun i => rfl
    refine ⟨?_, ?_, ?_, ?_, ?_, ?_⟩
    · intro c' hc'
      obtain ⟨h1, h2⟩ := htoolpart c' hc'
      exact ⟨h1, h2 [Event.textEnd "text-0"] hextra1⟩
    · intro id hid
      exact habsent id hid [Event.textEnd "text-0"] hextra1
    · right
      unfold textSeqOK
      rw [List.filter_append, List.filter_append, hf0, flushCalls_filter_textEv]
      have : ([Event.textEnd "text-0"] : List Event).filter (isTextEvOf "text-0") =
          [Event.textEnd "text-0"] := rfl
      rw [this]
      rw [List.cons_append, List.nil_append]
      simp only [beq_self_eq_true, Bool.true_and]
      exact textTail_append_deltas "text-0" ds hds
    · intro id hid
      rw [List.filter_append, hXo id hid, List.filter_append, flushCalls_filter_textEv]
      have : ([Event.textEnd "text-0"] : List Event).filter (isTextEvOf id) = [] := by
        have h1 : ("text-0" == id) = false := by
          simp
          exact fun hh => hid hh.symm
        simp [isTextEvOf, h1]
      rw [this]
      rfl
    · rw [List.countP_append, hF, List.countP_append, flushCalls_countP_finish]
      rfl
    · intro i hi
      simpa using hi

theorem flushAll_nil_of_closed {s : StreamState} {evs : List Event}
    (h : closedInv s evs) : (flushAll s).1 = [] := by
  obtain ⟨hT, _, _, _, _, hspan⟩ := h
  unfold flushAll
  dsimp only
  rw [flushCalls_all_completed_nil _ (fun c hc => (hT c hc).1),
    flushSpans_subset_nil _ _ hspan]
  rfl

theorem closedInv_flushAll {s : StreamState} {evs : List Event}
    (h : closedInv s evs) :
    closedInv (flushAll s).2 (evs ++ (flushAll s).1) := by
  have hnil := flushAll_nil_of_closed h
  rw [hnil, List.append_nil]
  obtain ⟨hT, hA, hX, hXo, hF, hspan⟩ := h
  unfold flushAll
  dsimp only
  refine ⟨?_, ?_, hX, hXo, hF, ?_⟩
  · intro c' hc'
    rw [flushCalls_snd_map, List.mem_map] at hc'
    obtain ⟨c0, hc0, he⟩ := hc'
    have hh := hT c0 hc0
    rw [← he]
    exact ⟨rfl, hh.2⟩
  · intro id hid
    rw [flushCalls_snd_findCall] at hid
    apply hA
    cases hf : findCall s.toolCalls id with
    | none => rfl
    | some c =>
      rw [hf] at hid
      exact absurd hid (by simp)
  · intro i hi
    have h1 := hspan i hi
    have h2 := flushSpans_contains s.textStarted s.textEnded i
    have h3 : (flushSpans s.textEnded s.textStarted).2.contains i = true := by
      rw [h2, (contains_true_iff _ _).mpr h1]
      rfl
    exact (contains_true_iff _ _).mp h3

theorem closedInv_processFrame_noDelta {s : StreamState} {f : Frame} {evs : List Event}
    (h : closedInv s evs) (hnd : frameNoDelta f = true) :
    closedInv (processFrame s f).2 (evs ++ (processFrame s f).1) := by
  unfold processFrame
  have h0 : closedInv
      (match f.usage with
       | some u => { s with usage := convUsage u }
       | none => s) evs := by
    cases f.usage <;> exact h
  cases hc : f.choices.head? with
  | none =>
    dsimp only
    simpa using h0
  | some choice =>
    dsimp only
    unfold frameNoDelta at hnd
    rw [hc] at hnd
    have hnd' : (match choice.delta with
        | none => true
        | some d => !strTruthy d.content && (d.tool_calls.getD []).isEmpty) = true := hnd
    by_cases hfin : strTruthy choice.finish_reason
    · rw [if_pos hfin]
      have h2 := closedInv_flushAll
        (s := { (match f.usage with
                 | some u => { s with usage := convUsage u }
                 | none => s) with
                finishReason := mapHeliconeFinishReason (choice.finish_reason.getD "") })
        h0
      cases hd : choice.delta with
      | none => simpa using h2
      | some d =>
        rw [hd] at hnd'
        dsimp only at hnd' ⊢
        rw [Bool.and_eq_true] at hnd'
        rw [processDelta_noPayload _ d (by simpa using hnd'.1) hnd'.2]
        simpa using h2
    · rw [if_neg hfin]
      cases hd : choice.delta with
      | none => simpa using h0
      | some d =>
        rw [hd] at hnd'
        dsimp only at hnd' ⊢
        rw [Bool.and_eq_true] at hnd'
        rw [processDelta_noPayload _ d (by simpa using hnd'.1) hnd'.2]
        simpa using h0

theorem closedInv_processLines_noDelta {lines : List (Option Frame)} {s : StreamState}
    {evs : List Event} (hnd : lines.all lineNoDelta = true) (h : closedInv s evs) :
    closedInv (processLines s lines).2 (evs ++ (processLines s lines).1) := by
  induction lines generalizing s evs with
  | nil => simpa [processLines] using h
  | cons l rest ih =>
    rw [List.all_cons, Bool.and_eq_true] at hnd
    simp only [processLines]
    have h1 : closedInv (processLine s l).2 (evs ++ (processLine s l).1) := by
      cases l with
      | none => simpa [processLine] using h
      | some f => exact closedInv_processFrame_noDelta h (by simpa [lineNoDelta] using hnd.1)
    have h2 := ih hnd.2 h1
    simpa [List.append_assoc] using h2

theorem openInv_processFrame {s : StreamState} {f : Frame} {evs : List Event}
    (hfr : frameFragsOK f = true) (hfin : frameFinish f = false) (h : openInv s evs) :
    openInv (processFrame s f).2 (evs ++ (processFrame s f).1) := by
  unfold processFrame
  have h0 : openInv
      (match f.usage with
       | some u => { s with usage := convUsage u }
       | none => s) evs := by
    cases f.usage <;> exact h
  cases hc : f.choices.head? with
  | none =>
    dsimp only
    simpa using h0
  | some choice =>
    dsimp only
    unfold frameFinish at hfin
    rw [hc] at hfin
    have hfin' : strTruthy choice.finish_reason = false := hfin
    rw [if_neg (by simp [hfin'])]
    unfold frameFragsOK at hfr
    rw [hc] at hfr
    have hfr' : (match choice.delta with
        | none => true
        | some d => (d.tool_calls.getD []).all fragOK) = true := hfr
    cases hd : choice.delta with
    | none => simpa using h0
    | some d =>
      rw [hd] at hfr'
      dsimp only at hfr' ⊢
      unfold processDelta
      by_cases hcont : strTruthy d.content
      · rw [if_pos hcont]
        have h1 := openInv_processContent (c := d.content.getD "") h0
        cases htc : d.tool_calls with
        | none => simpa using h1
        | some tcs =>
          rw [htc] at hfr'
          dsimp only
          have h2 := @openInv_processFragments tcs _ _ (by simpa using hfr') h1
          simpa [List.append_assoc] using h2
      · rw [if_neg hcont]
        cases htc : d.tool_calls with
        | none => simpa using h0
        | some tcs =>
          rw [htc] at hfr'
          dsimp only
          have h2 := @openInv_processFragments tcs _ _ (by simpa using hfr') h0
          simpa using h2

theorem closedInv_processFrame_finish {s : StreamState} {f : Frame} {evs : List Event}
    (hfin : frameFinish f = true) (hnd : frameNoDelta f = true) (h : openInv s evs) :
    closedInv (processFrame s f).2 (evs ++ (processFrame s f).1) := by
  unfold processFrame
  have h0 : openInv
      (match f.usage with
       | some u => { s with usage := convUsage u }
       | none => s) evs := by
    cases f.usage <;> exact h
  unfold frameFinish at hfin
  cases hc : f.choices.head? with
  | none =>
    rw [hc] at hfin
    exact absurd hfin (by simp)
  | some choice =>
    rw [hc] at hfin
    have hfin' : strTruthy choice.finish_reason = true := hfin
    dsimp only
    rw [if_pos hfin']
    have h2 := closedInv_of_openInv_flushAll
      (s := { (match f.usage with
               | some u => { s with usage := convUsage u }
               | none => s) with
              finishReason := mapHeliconeFinishReason (choice.finish_reason.getD "") })
      h0
    unfold frameNoDelta at hnd
    rw [hc] at hnd
    have hnd' : (match choice.delta with
        | none => true
        | some d => !strTruthy d.content && (d.tool_calls.getD []).isEmpty) = true := hnd
    cases hd : choice.delta with
    | none => simpa using h2
    | some d =>
      rw [hd] at hnd'
      dsimp only at hnd' ⊢
      rw [Bool.and_eq_true] at hnd'
      rw [processDelta_noPayload _ d (by simpa using hnd'.1) hnd'.2]
      simpa using h2

theorem wf_processLines (lines : List (Option Frame)) (s : StreamState) (evs : List Event)
    (hfrags : (lines.all (fun l =>
      match l with
      | none => true
      | some f => frameFragsOK f)) = true)
    (hphase : wfPhase lines = true)
    (h : openInv s evs) :
    openInv (processLines s lines).2 (evs ++ (processLines s lines).1) ∨
      closedInv (processLines s lines).2 (evs ++ (processLines s lines).1) := by
  induction lines generalizing s evs with
  | nil =>
    left
    simpa [processLines] using h
  | cons l rest ih =>
    rw [List.all_cons, Bool.and_eq_true] at hfrags
    obtain ⟨hfr1, hfr'⟩ := hfrags
    cases l with
    | none =>
      simp only [processLines, processLine]
      have hphase' : wfPhase rest = true := hphase
      rcases ih s evs hfr' hphase' h with ho | hcl
      · left
        simpa using ho
      · right
        simpa using hcl
    | some f =>
      by_cases hfin : frameFinish f
      · have hphase2 : frameNoDelta f = true ∧ rest.all lineNoDelta = true := by
          unfold wfPhase at hphase
          rw [if_pos hfin, Bool.and_eq_true] at hphase
          exact hphase
        simp only [processLines, processLine]
        have h1 := closedInv_processFrame_finish hfin hphase2.1 h
        have h2 := closedInv_processLines_noDelta hphase2.2 h1
        right
        simpa [List.append_assoc] using h2
      · have hphase' : wfPhase rest = true := by
          unfold wfPhase at hphase
          rw [if_neg hfin] at hphase
          exact hphase
        simp only [processLines, processLine]
        have hfin' : frameFinish f = false := by
          rw [Bool.not_eq_true] at hfin
          exact hfin
        have h1 := openInv_processFrame (by simpa using hfr1) hfin' h
        rcases ih _ _ hfr' hphase' h1 with ho | hcl
        · left
          simpa [List.append_assoc] using ho
        · right
          simpa [List.append_assoc] using hcl

theorem orderingOK_of_closedInv {s : StreamState} {evs : List Event}
    (h : closedInv s evs) (u : UsageOut) (r : String) :
    orderingOK (evs ++ [Event.finish u r]) = true := by
  obtain ⟨hT, hA, hX, hXo, hF, _⟩ := h
  have hfilfin_tool : ∀ id : String,
      (([Event.finish u r] : List Event).filter (isToolEvOf id)) = [] := fun id => rfl
  have hfilfin_text : ∀ id : String,
      (([Event.finish u r] : List Event).filter (isTextEvOf id)) = [] := fun id => rfl
  unfold orderingOK
  have c1 : ((evs ++ [Event.finish u r]).filterMap toolIdOf).all
      (fun id => toolSeqOK id (evs ++ [Event.finish u r])) = true := by
    rw [List.all_eq_true]
    intro id hid
    rw [List.filterMap_append] at hid
    have hid' : id ∈ evs.filterMap toolIdOf := by
      simpa [toolIdOf] using hid
    obtain ⟨e, he, hei⟩ := List.mem_filterMap.mp hid'
    have hev : isToolEvOf id e = true := by
      cases e <;> simp [toolIdOf] at hei <;> simp [isToolEvOf, hei]
    have hne : evs.filter (isToolEvOf id) ≠ [] := by
      intro hnil
      have hm : e ∈ evs.filter (isToolEvOf id) := List.mem_filter.mpr ⟨he, hev⟩
      rw [hnil] at hm
      simp at hm
    cases hfc : findCall s.toolCalls id with
    | none => exact absurd (hA id hfc) hne
    | some c =>
      have hcmem := List.mem_of_find?_eq_some hfc
      have hcid := findCall_id hfc
      have hOK := (hT c hcmem).2
      rw [hcid] at hOK
      unfold toolSeqOK at hOK ⊢
      rw [List.filter_append, hfilfin_tool, List.append_nil]
      exact hOK
  have c2 : ((evs ++ [Event.finish u r]).filterMap textIdOf).all
      (fun id => textSeqOK id (evs ++ [Event.finish u r])) = true := by
    rw [List.all_eq_true]
    intro id hid
    rw [List.filterMap_append] at hid
    have hid' : id ∈ evs.filterMap textIdOf := by
      simpa [textIdOf] using hid
    obtain ⟨e, he, hei⟩ := List.mem_filterMap.mp hid'
    have hev : isTextEvOf id e = true := by
      cases e <;> simp [textIdOf] at hei <;> simp [isTextEvOf, hei]
    have hne : evs.filter (isTextEvOf id) ≠ [] := by
      intro hnil
      have hm : e ∈ evs.filter (isTextEvOf id) := List.mem_filter.mpr ⟨he, hev⟩
      rw [hnil] at hm
      simp at hm
    by_cases hid0 : id = "text-0"
    · subst hid0
      rcases hX with hx | hx
      · exact absurd hx hne
      · unfold textSeqOK at hx ⊢
        rw [List.filter_append, hfilfin_text, List.append_nil]
        exact hx
    · exact absurd (hXo id hid0) hne
  have c3 : ((evs ++ [Event.finish u r]).countP isFinishEv == 1) = true := by
    rw [List.countP_append, hF]
    rfl
  have c4 : (match (evs ++ [Event.finish u r]).getLast? with
      | some (Event.finish _ _) => true
      | _ => false) = true := by
    rw [List.getLast?_concat]
  rw [c1, c2, c3, c4]
  rfl

/-! ### Claim C1 -/

/-- C1 counterexample: a frame carrying both a finish signal and an
index-only argument fragment for an already-tracked call is flushed first,
so a `tool-input-delta` for `c1` is emitted after its `tool-call`,
violating the claimed ordering invariant. -/
theorem spec_C1_counterexample :
    orderingOK (runStream
      [some (exToolFrame none [exFrag (some 0) (some "c1") (some "f") (some "a")]),
       some (exToolFrame (some "tool_calls") [exFrag (some 0) none none (some "b")])])
      = false := by
  decide

/-- C1 (amended): for every decoded frame sequence that is well formed —
every tool fragment carrying a truthy id also carries a truthy name, and a
finish-signal frame carries no text/tool payload and is followed only by
payload-free frames — the emitted sequence satisfies the ordering
invariant: per tool id the events form
`tool-input-start · tool-input-delta* · tool-input-end · tool-call`, per
text span `text-start · text-delta* · text-end`, and exactly one `finish`
event is emitted, as the last event.  The unrestricted claim is refuted by
`spec_C1_counterexample` (a delta co-occurring with or following a finish
signal lands after the flush; an argument fragment arriving before the
call's name would likewise precede its `tool-input-start`). -/
theorem spec_C1_event_ordering (lines : List (Option Frame))
    (h : wellFormed lines = true) :
    orderingOK (runStream lines) = true := by
  unfold wellFormed at h
  rw [Bool.and_eq_true] at h
  obtain ⟨hfrags, hphase⟩ := h
  have h0 : openInv initState [] := by
    refine ⟨?_, ?_, ?_, ?_, rfl, ?_, ?_⟩
    · intro c hc
      simp [initState] at hc
    · intro id _
      rfl
    · left
      exact ⟨rfl, rfl, rfl⟩
    · intro id _
      rfl
    · simp [initState]
    · intro p hp
      simp [initState] at hp
  rcases wf_processLines lines initState [] hfrags hphase h0 with ho | hcl
  · rw [List.nil_append] at ho
    have h2 := closedInv_of_openInv_flushAll ho
    show orderingOK ((processLines initState lines).1 ++
      (flushAll (processLines initState lines).2).1 ++
      [Event.finish (flushAll (processLines initState lines).2).2.usage
        (flushAll (processLines initState lines).2).2.finishReason]) = true
    exact orderingOK_of_closedInv h2 _ _
  · rw [List.nil_append] at hcl
    have hnil := flushAll_nil_of_closed hcl
    show orderingOK ((processLines initState lines).1 ++
      (flushAll (processLines initState lines).2).1 ++
      [Event.finish (flushAll (processLines initState lines).2).2.usage
        (flushAll (processLines initState lines).2).2.finishReason]) = true
    rw [hnil]
    have := orderingOK_of_closedInv hcl
      (flushAll (processLines initState lines).2).2.usage
      (flushAll (processLines initState lines).2).2.finishReason
    simpa using this

/-- Witness for C1 (amended) at a concrete well-formed stream: a named
tool-call fragment, a text fragment, then a payload-free finish frame. -/
theorem spec_C1_event_ordering_witness :
    wellFormed
        [some (exToolFrame none [exFrag (some 0) (some "c1") (some "f") (some "a")]),
         some (exTextFrame "hi"),
         some (exToolFrame (some "tool_calls") [])] = true ∧
      orderingOK (runStream
        [some (exToolFrame none [exFrag (some 0) (some "c1") (some "f") (some "a")]),
         some (exTextFrame "hi"),
         some (exToolFrame (some "tool_calls") [])]) = true :=
  ⟨by decide, spec_C1_event_ordering _ (by decide)⟩

end Helicone
